import Mathlib

/-!
# gorepos: the package registry of `gorepos.go`

A shallow embedding of `src/gorepos.go`: the record parser `NewPackage`, the
loader `loadPackages` / `NewPackageList`, the lookup `getPackage` and the
request handler `ServeHTTP`, together with the parts of the Go standard
library they call (`strings.Fields`, `strings.TrimSpace`, `strings.LastIndex`,
`bufio.Reader.ReadLine`, map indexing, slicing).

Go strings are byte sequences, so they are lists of bytes here; run-time
panics (index or slice bounds out of range) are explicit `Except` errors.
-/

namespace Gorepos

/-! ## Go strings -/

/-- A Go string: a sequence of bytes (every element is below 256 in a real string). -/
abbrev GoString := List Nat

/-- UTF-8 encoding of one code point (`utf8.EncodeRune` on a valid rune). -/
def encodeRune (c : Nat) : GoString :=
  if c < 0x80 then [c]
  else if c < 0x800 then [0xC0 + c / 64, 0x80 + c % 64]
  else if c < 0x10000 then [0xE0 + c / 4096, 0x80 + c / 64 % 64, 0x80 + c % 64]
  else [0xF0 + c / 262144, 0x80 + c / 4096 % 64, 0x80 + c / 64 % 64, 0x80 + c % 64]

/-- The bytes of a string literal of the source. -/
def bytes (s : String) : GoString :=
  s.toList.flatMap (fun c => encodeRune c.toNat)

deriving instance DecidableEq for Except

/-- Run-time panics of Go that the program can raise. -/
inductive Panic where
  /-- `index out of range [index] with length length` -/
  | indexOutOfRange (index length : Nat)
  /-- `slice bounds out of range [:bound]` -/
  | sliceBoundsOutOfRange (bound : Int)
  deriving DecidableEq, Repr

/-- Go error values that the program meets. -/
inductive Error where
  /-- `io.EOF` -/
  | EOF
  /-- `bufio.ErrBufferFull` -/
  | ErrBufferFull
  /-- an error reported by the operating system when opening or reading a file -/
  | os (msg : GoString)
  deriving DecidableEq, Repr

/-- The index expression `xs[i]` on a slice. -/
def index {α : Type} (xs : List α) (i : Nat) : Except Panic α :=
  match xs.get? i with
  | some x => .ok x
  | none => .error (.indexOutOfRange i xs.length)

/-- The slice expression `s[:hi]` on a string. -/
def sliceTo (s : GoString) (hi : Int) : Except Panic GoString :=
  if 0 ≤ hi ∧ hi ≤ s.length then .ok (s.take hi.toNat)
  else .error (.sliceBoundsOutOfRange hi)

/-- `strings.LastIndex(s, substr)`: the index of the last instance of `substr`
in `s`, or -1 when there is none. -/
def LastIndex : GoString → GoString → Int
  | [], substr => if substr = [] then 0 else -1
  | c :: t, substr =>
    if 0 ≤ LastIndex t substr then LastIndex t substr + 1
    else if substr.isPrefixOf (c :: t) then 0
    else -1

/-! ## UTF-8 decoding and white space -/

/-- `utf8.RuneError` -/
def RuneError : Nat := 0xFFFD

/-- `utf8.RuneSelf` -/
def RuneSelf : Nat := 0x80

/-- `utf8.UTFMax` -/
def UTFMax : Nat := 4

/-- `utf8.DecodeRuneInString`: the first rune of `s` and its width in bytes;
an invalid or incomplete encoding gives `(RuneError, 1)`, the empty string
`(RuneError, 0)`. -/
def decodeRune : GoString → Nat × Nat
  | [] => (RuneError, 0)
  | s0 :: t =>
    if s0 < RuneSelf then (s0, 1)
    else if s0 < 0xC2 ∨ 0xF4 < s0 then (RuneError, 1)
    else
      let sz := if s0 < 0xE0 then 2 else if s0 < 0xF0 then 3 else 4
      let lo := if s0 = 0xE0 then 0xA0 else if s0 = 0xF0 then 0x90 else 0x80
      let hi := if s0 = 0xED then 0x9F else if s0 = 0xF4 then 0x8F else 0xBF
      if t.length + 1 < sz then (RuneError, 1)
      else
        match t with
        | [] => (RuneError, 1)
        | s1 :: t1 =>
          if s1 < lo ∨ hi < s1 then (RuneError, 1)
          else if sz ≤ 2 then (s0 % 32 * 64 + s1 % 64, 2)
          else
            match t1 with
            | [] => (RuneError, 1)
            | s2 :: t2 =>
              if s2 < 0x80 ∨ 0xBF < s2 then (RuneError, 1)
              else if sz ≤ 3 then (s0 % 16 * 4096 + s1 % 64 * 64 + s2 % 64, 3)
              else
                match t2 with
                | [] => (RuneError, 1)
                | s3 :: _ =>
                  if s3 < 0x80 ∨ 0xBF < s3 then (RuneError, 1)
                  else (s0 % 8 * 262144 + s1 % 64 * 4096 + s2 % 64 * 64 + s3 % 64, 4)

/-- `utf8.RuneStart`: the byte is not a continuation byte. -/
def RuneStart (b : Nat) : Bool :=
  b / 64 % 4 != 2

/-- The backward scan of `utf8.DecodeLastRuneInString`: the greatest index in
`lim .. lim + k - 1` that holds a rune start, or `lim - 1` when none does. -/
def lastRuneStart (s : GoString) (lim : Nat) : Nat → Int
  | 0 => (lim : Int) - 1
  | k + 1 => if RuneStart (s.getD (lim + k) 0) then ((lim + k : Nat) : Int) else lastRuneStart s lim k

/-- `utf8.DecodeLastRuneInString`: the last rune of `s` and its width. -/
def decodeLastRune (s : GoString) : Nat × Nat :=
  if s.length = 0 then (RuneError, 0)
  else
    let r := s.getD (s.length - 1) 0
    if r < RuneSelf then (r, 1)
    else
      let lim := s.length - UTFMax
      let start := (lastRuneStart s lim (s.length - 1 - lim)).toNat
      let d := decodeRune (s.drop start)
      if start + d.2 ≠ s.length then (RuneError, 1) else d

/-- `unicode.IsSpace`: the Latin-1 space characters and the runes with the
Unicode property `White_Space`. -/
def isSpace (r : Nat) : Bool :=
  if r ≤ 0xFF then
    r = 0x09 ∨ r = 0x0A ∨ r = 0x0B ∨ r = 0x0C ∨ r = 0x0D ∨ r = 0x20 ∨ r = 0x85 ∨ r = 0xA0
  else
    r = 0x1680 ∨ (0x2000 ≤ r ∧ r ≤ 0x200A) ∨ r = 0x2028 ∨ r = 0x2029 ∨ r = 0x202F
      ∨ r = 0x205F ∨ r = 0x3000

/-- The runes that `for i, r := range s` yields, each with the bytes it spans;
`skip` counts the bytes of the current rune still to pass over. -/
def runesFrom : GoString → Nat → List (Nat × GoString)
  | [], _ => []
  | _ :: t, skip + 1 => runesFrom t skip
  | b :: t, 0 =>
    ((decodeRune (b :: t)).1, (b :: t).take (decodeRune (b :: t)).2)
      :: runesFrom t ((decodeRune (b :: t)).2 - 1)

/-- The runes of a string in order, each with its bytes. -/
def runes (s : GoString) : List (Nat × GoString) :=
  runesFrom s 0

/-- The loop of `strings.FieldsFunc` with `unicode.IsSpace`: `cur` is the
field being read (`none` when `start < 0`). -/
def fieldsLoop : List (Nat × GoString) → Option GoString → List GoString
  | [], none => []
  | [], some f => [f]
  | (r, w) :: rest, none =>
    if isSpace r then fieldsLoop rest none else fieldsLoop rest (some w)
  | (r, w) :: rest, some f =>
    if isSpace r then f :: fieldsLoop rest none else fieldsLoop rest (some (f ++ w))

/-- `strings.Fields`: the maximal runs of non-space runes of `s`, in order. -/
def Fields (s : GoString) : List GoString :=
  fieldsLoop (runes s) none

/-- `strings.indexFunc` with `unicode.IsSpace`, over the runes from byte index `i` on. -/
def indexFunc (truth : Bool) : List (Nat × GoString) → Nat → Int
  | [], _ => -1
  | (r, w) :: rest, i => if isSpace r = truth then (i : Int) else indexFunc truth rest (i + w.length)

/-- `strings.lastIndexFunc` with `unicode.IsSpace`, on `s[0:i]`; `skip` counts
the bytes of the rune decoded last that are still to pass over. -/
def lastIndexFunc (s : GoString) (truth : Bool) : Nat → Nat → Int
  | 0, _ => -1
  | i + 1, skip + 1 => lastIndexFunc s truth i skip
  | i + 1, 0 =>
    if isSpace (decodeLastRune (s.take (i + 1))).1 = truth then
      ((i + 1 - (decodeLastRune (s.take (i + 1))).2 : Nat) : Int)
    else lastIndexFunc s truth i ((decodeLastRune (s.take (i + 1))).2 - 1)

/-- `strings.TrimLeftFunc(s, unicode.IsSpace)` -/
def TrimLeftSpace (s : GoString) : GoString :=
  if indexFunc false (runes s) 0 = -1 then [] else s.drop (indexFunc false (runes s) 0).toNat

/-- `strings.TrimRightFunc(s, unicode.IsSpace)` -/
def TrimRightSpace (s : GoString) : GoString :=
  let i := lastIndexFunc s false s.length 0
  if 0 ≤ i ∧ RuneSelf ≤ s.getD i.toNat 0 then
    s.take (i.toNat + (decodeRune (s.drop i.toNat)).2)
  else s.take (i + 1).toNat

/-- `strings.TrimSpace` -/
def TrimSpace (s : GoString) : GoString :=
  TrimRightSpace (TrimLeftSpace s)

/-! ## Package records -/

/-- `type Package struct { Path, Vcs, Repo, Doc string }` -/
structure Package where
  Path : GoString
  Vcs : GoString
  Repo : GoString
  Doc : GoString
  deriving DecidableEq, Repr

/-- `NewPackage`: the record of one line; indexing `fields` panics when the
line has fewer than three fields. -/
def NewPackage (line : GoString) : Except Panic Package :=
  let fields := Fields line
  let doc : Except Panic GoString := if fields.length > 3 then index fields 3 else .ok []
  match doc with
  | .error p => .error p
  | .ok doc =>
    match index fields 0 with
    | .error p => .error p
    | .ok path =>
      match index fields 1 with
      | .error p => .error p
      | .ok vcs =>
        match index fields 2 with
        | .error p => .error p
        | .ok repo => .ok ⟨path, vcs, repo, doc⟩

/-! ## Maps -/

/-- A Go `map[string]V`: at most one entry per key. -/
abbrev GoMap (V : Type) := List (GoString × V)

/-- The lookup `v, ok := m[k]`. -/
def GoMap.find {V : Type} : GoMap V → GoString → Option V
  | [], _ => none
  | (k', v) :: rest, k => if k' = k then some v else GoMap.find rest k

/-- The assignment `m[k] = v`. -/
def GoMap.insert {V : Type} : GoMap V → GoString → V → GoMap V
  | [], k, v => [(k, v)]
  | (k', v') :: rest, k, v =>
    if k' = k then (k, v) :: rest else (k', v') :: GoMap.insert rest k v

/-! ## The registry -/

/-- `type PackageList struct`: the entries mapping, the backing file and the
host override (the lock `mx` has no part in a sequential run). -/
structure PackageList where
  packages : GoMap Package
  file : GoString
  masqHost : GoString
  deriving DecidableEq, Repr

/-- The loop of `getPackage`: `cand` is the loop variable of the source
(the candidate, shortened at its last slash on every round). Every round
shortens `cand`, so `cand.length + 1` rounds of fuel are never used up. -/
def getPackageLoop (packages : GoMap Package) : Nat → GoString → Except Panic (Option Package)
  | 0, _ => .ok none
  | fuel + 1, cand =>
    if cand = [] then .ok none
    else
      match packages.find cand with
      | some pkg => .ok (some pkg)
      | none =>
        match sliceTo cand (LastIndex cand (bytes "/")) with
        | .error p => .error p
        | .ok next => getPackageLoop packages fuel next

/-- `PackageList.getPackage`: `some pkg` for `(pkg, true)`, `none` for `(nil, false)`. -/
def getPackage (pl : PackageList) (path : GoString) : Except Panic (Option Package) :=
  match pl.packages.find path with
  | some pkg => .ok (some pkg)
  | none => getPackageLoop pl.packages (path.length + 1) path

/-! ## Reading the backing file -/

/-- `bufio.NewReader(f)` on an opened file: the bytes not yet handed out, and
the read error that ends the stream (`none` for a clean end of input). -/
structure Reader where
  pending : GoString
  fault : Option GoString
  deriving DecidableEq, Repr

/-- The size of the buffer of `bufio.NewReader`. -/
def defaultBufSize : Nat := 4096

/-- The error a read at the end of the stream reports. -/
def Reader.endError (b : Reader) : Error :=
  match b.fault with
  | none => .EOF
  | some msg => .os msg

/-- What `ReadSlice` hands back: the slice, the error and the reader after the call. -/
structure SliceRead where
  line : GoString
  err : Option Error
  rd : Reader
  deriving DecidableEq, Repr

/-- What `ReadLine` hands back: `line, isPrefix, err` and the reader after the call. -/
structure LineRead where
  line : GoString
  isPrefix : Bool
  err : Option Error
  rd : Reader
  deriving DecidableEq, Repr

/-- `bufio.Reader.ReadSlice(delim)`: up to and including the first `delim`
within the buffer; a full buffer without `delim` is handed out whole with
`ErrBufferFull`; at the end of the stream the rest with the stream error. -/
def ReadSlice (b : Reader) (delim : Nat) : SliceRead :=
  let window := b.pending.take defaultBufSize
  if delim ∈ window then
    let n := window.indexOf delim + 1
    { line := b.pending.take n, err := none, rd := { b with pending := b.pending.drop n } }
  else if defaultBufSize ≤ b.pending.length then
    { line := window, err := some .ErrBufferFull,
      rd := { b with pending := b.pending.drop defaultBufSize } }
  else
    { line := b.pending, err := some b.endError, rd := { b with pending := [] } }

/-- `bufio.Reader.ReadLine` -/
def ReadLine (b : Reader) : LineRead :=
  let s := ReadSlice b 10
  if s.err = some .ErrBufferFull then
    if s.line.getLast? = some 13 then
      { line := s.line.dropLast, isPrefix := true, err := none,
        rd := { s.rd with pending := 13 :: s.rd.pending } }
    else { line := s.line, isPrefix := true, err := none, rd := s.rd }
  else if s.line.length = 0 then
    { line := [], isPrefix := false, err := s.err, rd := s.rd }
  else if s.line.getLast? = some 10 then
    let drop := if s.line.length > 1 ∧ s.line.getD (s.line.length - 2) 0 = 13 then 2 else 1
    { line := s.line.take (s.line.length - drop), isPrefix := false, err := none, rd := s.rd }
  else { line := s.line, isPrefix := false, err := none, rd := s.rd }

/-- The files of the machine: what `os.Open(name)` gives. -/
abbrev FileSystem := GoString → Except Error Reader

/-- The `for` loop of `loadPackages`: `pkgs` is the mapping built so far.
Every line read takes at least one byte from the reader, so
`pending.length + 1` rounds of fuel are never used up. -/
def loadLoop : Nat → Reader → GoMap Package → Except Panic (Except Error (GoMap Package))
  | 0, _, pkgs => .ok (.ok pkgs)
  | fuel + 1, rd, pkgs =>
    if (ReadLine rd).err = some .EOF then .ok (.ok pkgs)
    else
      match (ReadLine rd).err with
      | some e => .ok (.error e)
      | none =>
        if (TrimSpace (ReadLine rd).line).length > 0 then
          match NewPackage (ReadLine rd).line with
          | .error p => .error p
          | .ok pkg => loadLoop fuel (ReadLine rd).rd (pkgs.insert pkg.Path pkg)
        else loadLoop fuel (ReadLine rd).rd pkgs

/-- `PackageList.loadPackages`: the registry after the call, and the error
returned (`none` for `nil`) or the panic raised. -/
def loadPackages (fs : FileSystem) (pl : PackageList) : PackageList × Except Panic (Option Error) :=
  match fs pl.file with
  | .error e => (pl, .ok (some e))
  | .ok f =>
    match loadLoop (f.pending.length + 1) f [] with
    | .error p => (pl, .error p)
    | .ok (.error e) => (pl, .ok (some e))
    | .ok (.ok pkgs) => ({ pl with packages := pkgs }, .ok none)

/-- `NewPackageList`: `.ok (.ok pl)` for `(pl, nil)`, `.ok (.error e)` for `(nil, err)`. -/
def NewPackageList (fs : FileSystem) (pkgFile masqHost : GoString) :
    Except Panic (Except Error PackageList) :=
  match loadPackages fs { packages := [], file := pkgFile, masqHost := masqHost } with
  | (_, .error p) => .error p
  | (_, .ok (some e)) => .ok (.error e)
  | (pl, .ok none) => .ok (.ok pl)

/-! ## The request handler -/

/-- The parts of `*http.Request` that the handler reads: `r.Host`,
`r.URL.Path` and `r.FormValue`. -/
structure Request where
  Host : GoString
  Path : GoString
  FormValue : GoString → GoString

/-- What the handler writes: which template it executes on which data (the
templates `indexTmpl` and `pkgTmpl` are declared outside `gorepos.go`), a
redirect, or `http.NotFound`. -/
inductive Response where
  /-- `indexTmpl.Execute` with `host` and `pkgs` -/
  | indexPage (host : GoString) (pkgs : GoMap Package)
  /-- `pkgTmpl.Execute` with `host` and `pkg` -/
  | packagePage (host : GoString) (pkg : Package)
  /-- `http.Redirect(w, r, url, code)` -/
  | redirect (url : GoString) (code : Nat)
  /-- `http.NotFound(w, r)` -/
  | notFound
  deriving DecidableEq, Repr

/-- `http.StatusFound` -/
def StatusFound : Nat := 302

/-- `PackageList.ServeHTTP` -/
def ServeHTTP (pl : PackageList) (r : Request) : Except Panic Response :=
  let host := if pl.masqHost = [] then r.Host else pl.masqHost
  if r.Path = bytes "/" then .ok (.indexPage host pl.packages)
  else
    match getPackage pl r.Path with
    | .error p => .error p
    | .ok (some pkg) =>
      if r.FormValue (bytes "go-get") = bytes "1" ∨ pkg.Doc = [] then
        .ok (.packagePage host pkg)
      else .ok (.redirect pkg.Doc StatusFound)
    | .ok none => .ok .notFound

/-! ## Notions of the specification -/

/-- Specification: the shorter candidates of a path among its first `n`
bytes, longest first: for every slash of the path, what stands before it
(the path without its final slash-delimited segments and their slashes). -/
def cuts (p : GoString) : Nat → List GoString
  | 0 => []
  | n + 1 => if p.getD n 0 = 47 then p.take n :: cuts p n else cuts p n

/-- Specification: the candidate prefixes of a path, longest first: the path
itself, then what is left each time the final slash-delimited segment is
removed together with its slash, as long as something is left. -/
def candidatePrefixes (p : GoString) : List GoString :=
  (p :: cuts p p.length).filter (fun q => !q.isEmpty)

/-- The test of the loader on a line: `len(strings.TrimSpace(line)) > 0`. -/
def nonBlank (l : GoString) : Bool :=
  decide ((TrimSpace l).length > 0)

/-- The lines that `ReadLine` hands to the loop of `loadPackages`, in order,
up to the first call that reports an error. -/
def readLines : Nat → Reader → List GoString
  | 0, _ => []
  | fuel + 1, rd =>
    match (ReadLine rd).err with
    | some _ => []
    | none => (ReadLine rd).line :: readLines fuel (ReadLine rd).rd

/-- The lines of a freshly opened file as the loader reads them. -/
def Reader.lines (rd : Reader) : List GoString :=
  readLines (rd.pending.length + 1) rd

/-- The body of the loop of `loadPackages` run over a list of lines. -/
def addLines : List GoString → GoMap Package → Except Panic (GoMap Package)
  | [], pkgs => .ok pkgs
  | l :: rest, pkgs =>
    if (TrimSpace l).length > 0 then
      match NewPackage l with
      | .error p => .error p
      | .ok pkg => addLines rest (pkgs.insert pkg.Path pkg)
    else addLines rest pkgs

/-- Specification: the records parsed from the non-blank lines, in file order. -/
def parsedRecords (ls : List GoString) : List Package :=
  ls.filterMap (fun l =>
    if nonBlank l then
      match NewPackage l with
      | .ok r => some r
      | .error _ => none
    else none)

/-- Specification: the record of the last line that has the given path. -/
def lastWithPath (rs : List Package) (k : GoString) : Option Package :=
  rs.reverse.find? (fun r => decide (r.Path = k))

/-- The keys of a map. -/
def GoMap.keys {V : Type} (m : GoMap V) : List GoString :=
  m.map Prod.fst

/-- The assignments `pkgs[pkg.Path] = pkg` for a list of records, in order. -/
def insertAll (rs : List Package) (m : GoMap Package) : GoMap Package :=
  rs.foldl (fun acc r => acc.insert r.Path r) m

/-- A line without the carriage return that ends it, if one does. -/
def dropCR (l : GoString) : GoString :=
  if l.getLast? = some 13 then l.dropLast else l

/-- The bytes of a file made of the lines `ls`, each ended by a line feed,
and of a last line `last` without one (empty when the file ends in a line feed). -/
def joinLines (ls : List GoString) (last : GoString) : GoString :=
  ls.flatMap (fun l => l ++ [10]) ++ last

/-- A file system in which every name opens a file with the given bytes. -/
def fileWith (data : GoString) : FileSystem :=
  fun _ => .ok { pending := data, fault := none }

/-- The source file of the scenario of the specification. -/
def scenarioFile : GoString :=
  bytes "/foo git https://example.com/foo https://docs.example.com/foo\n/foo/sub hg https://example.com/sub\n"

/-- A file system in which every name opens the scenario file. -/
def scenarioFS : FileSystem :=
  fun _ => .ok { pending := scenarioFile, fault := none }

/-- The registry that loading the scenario file installs. -/
def scenarioRegistry : PackageList :=
  (loadPackages scenarioFS { packages := [], file := bytes "pkgs", masqHost := [] }).1

/-- The record of `/foo` in the scenario. -/
def fooRecord : Package :=
  { Path := bytes "/foo", Vcs := bytes "git", Repo := bytes "https://example.com/foo",
    Doc := bytes "https://docs.example.com/foo" }

/-- The record of `/foo/sub` in the scenario. -/
def subRecord : Package :=
  { Path := bytes "/foo/sub", Vcs := bytes "hg", Repo := bytes "https://example.com/sub", Doc := [] }

/-- A registry without entries. -/
def emptyRegistry : PackageList :=
  { packages := [], file := bytes "pkgs", masqHost := [] }

/-- A request for the given path without form values. -/
def plainRequest (path : GoString) : Request :=
  { Host := bytes "example.org", Path := path, FormValue := fun _ => [] }

/-- A request for the given path with the form value `go-get=1`. -/
def goGetRequest (path : GoString) : Request :=
  { Host := bytes "example.org", Path := path,
    FormValue := fun key => if key = bytes "go-get" then bytes "1" else [] }

/-- The first non-blank line with fewer than three fields among the lines,
with its position (the first line of `ls` has position `i`). -/
def firstMalformed : List GoString → Nat → Option (Nat × GoString)
  | [], _ => none
  | l :: rest, i =>
    if nonBlank l = true ∧ (Fields l).length < 3 then some (i, l)
    else firstMalformed rest (i + 1)

/-- One line of 4103 bytes: `/a git `, 4089 times `x`, then `/b hg v`. -/
def longLine : GoString :=
  bytes "/a git " ++ List.replicate 4089 120 ++ bytes "/b hg v"

/-- The part of `decodeRune` after the first byte `s0` has been classified:
`sz` is the length of the encoding that `s0` starts, `lo` and `hi` bound the
second byte, `t` holds the bytes after `s0`. -/
def decodeTail (s0 sz lo hi : Nat) (t : GoString) : Nat × Nat :=
  if t.length + 1 < sz then (RuneError, 1)
  else
    match t with
    | [] => (RuneError, 1)
    | s1 :: t1 =>
      if s1 < lo ∨ hi < s1 then (RuneError, 1)
      else if sz ≤ 2 then (s0 % 32 * 64 + s1 % 64, 2)
      else
        match t1 with
        | [] => (RuneError, 1)
        | s2 :: t2 =>
          if s2 < 0x80 ∨ 0xBF < s2 then (RuneError, 1)
          else if sz ≤ 3 then (s0 % 16 * 4096 + s1 % 64 * 64 + s2 % 64, 3)
          else
            match t2 with
            | [] => (RuneError, 1)
            | s3 :: _ =>
              if s3 < 0x80 ∨ 0xBF < s3 then (RuneError, 1)
              else (s0 % 8 * 262144 + s1 % 64 * 4096 + s2 % 64 * 64 + s3 % 64, 4)

/-- The length of the encoding that a first byte starts. -/
def seqSize (s0 : Nat) : Nat :=
  if s0 < 0xE0 then 2 else if s0 < 0xF0 then 3 else 4

/-- The least second byte after a first byte. -/
def seqLo (s0 : Nat) : Nat :=
  if s0 = 0xE0 then 0xA0 else if s0 = 0xF0 then 0x90 else 0x80

/-- The greatest second byte after a first byte. -/
def seqHi (s0 : Nat) : Nat :=
  if s0 = 0xED then 0x9F else if s0 = 0xF4 then 0x8F else 0xBF

/-- The bytes after the first one complete an encoding of `sz` bytes. -/
def tailValid (sz lo hi : Nat) (t : GoString) : Prop :=
  sz ≤ t.length + 1 ∧ (lo ≤ t.getD 0 0 ∧ t.getD 0 0 ≤ hi) ∧
    (3 ≤ sz → 0x80 ≤ t.getD 1 0 ∧ t.getD 1 0 ≤ 0xBF) ∧
    (4 ≤ sz → 0x80 ≤ t.getD 2 0 ∧ t.getD 2 0 ≤ 0xBF)

/-- The rune that an encoding of `sz` bytes stands for. -/
def tailValue (s0 sz : Nat) (t : GoString) : Nat :=
  if sz ≤ 2 then s0 % 32 * 64 + t.getD 0 0 % 64
  else if sz ≤ 3 then s0 % 16 * 4096 + t.getD 0 0 % 64 * 64 + t.getD 1 0 % 64
  else s0 % 8 * 262144 + t.getD 0 0 % 64 * 4096 + t.getD 1 0 % 64 * 64 + t.getD 2 0 % 64

/-- Specification: the key `k` matches the path `p` at a segment boundary:
it is the path, or it is followed by a slash in the path. -/
def matchesPath (k p : GoString) : Prop :=
  k = p ∨ k ++ [47] <+: p

/-- The record of `/` for a registry that holds the root path. -/
def rootRecord : Package :=
  { Path := bytes "/", Vcs := bytes "git", Repo := bytes "https://example.com/root", Doc := [] }

/-- A registry whose only key is `/foo`. -/
def fooOnly : PackageList :=
  { packages := [(bytes "/foo", fooRecord)], file := bytes "pkgs", masqHost := [] }

/-- A registry whose only key is `/`. -/
def rootOnly : PackageList :=
  { packages := [(bytes "/", rootRecord)], file := bytes "pkgs", masqHost := [] }

/-- Specification: a word, as a field is one: not empty and without any white
space rune. -/
def isWord (f : GoString) : Prop :=
  f ≠ [] ∧ ∀ tk ∈ runes f, isSpace tk.1 = false

/-- Specification: white space: every rune of the string is a white space rune. -/
def isWhite (w : GoString) : Prop :=
  ∀ tk ∈ runes w, isSpace tk.1 = true

/-- Specification: a line written as leading white space followed by words,
each with the white space that follows it. -/
def assemble (lead : GoString) (items : List (GoString × GoString)) : GoString :=
  lead ++ items.flatMap (fun it => it.1 ++ it.2)

/-- Specification: the words of a line are separated: every word is a word,
what follows it is white space, and this white space is not empty unless the
word is the last one. -/
def separated : List (GoString × GoString) → Prop
  | [] => True
  | [it] => isWord it.1 ∧ isWhite it.2
  | it :: it2 :: rest => isWord it.1 ∧ isWhite it.2 ∧ it.2 ≠ [] ∧ separated (it2 :: rest)

/-- What one round of the loop of `getPackage` does with the candidate
`prefix`: it ends the call with a result, or it goes on with the next
candidate. -/
inductive LoopStep where
  | done (result : Except Panic (Option Package))
  | next (cand : GoString)
  deriving DecidableEq

/-- One round of `for prefix := path; prefix != ""; prefix =
prefix[:strings.LastIndex(prefix, "/")]`: the loop test, the lookup in the
body, and the update of `prefix`. -/
def getPackageStep (packages : GoMap Package) (cand : GoString) : LoopStep :=
  if cand = [] then .done (.ok none)
  else
    match packages.find cand with
    | some pkg => .done (.ok (some pkg))
    | none =>
      match sliceTo cand (LastIndex cand (bytes "/")) with
      | .error p => .done (.error p)
      | .ok next => .next next

/-- The loop of `getPackage` run for at most `rounds` rounds: `none` when the
loop has not ended by then. -/
def getPackageRun (packages : GoMap Package) : Nat → GoString → Option (Except Panic (Option Package))
  | 0, _ => none
  | rounds + 1, cand =>
    match getPackageStep packages cand with
    | .done result => some result
    | .next next => getPackageRun packages rounds next

/-- The value of the loop variable `prefix` after `k` rounds that went on,
`none` when the loop ended before. -/
def candidateAfter (packages : GoMap Package) : Nat → GoString → Option GoString
  | 0, cand => some cand
  | k + 1, cand =>
    match getPackageStep packages cand with
    | .done _ => none
    | .next next => candidateAfter packages k next

/-- A line of 4097 bytes that is white space only: 4095 spaces and the
no-break space U+00A0, whose UTF-8 encoding is the two bytes C2 A0. -/
def wideBlankLine : GoString :=
  List.replicate 4095 32 ++ [194, 160]

/-! ## Lookup: `getPackage` -/

theorem bytes_slash : bytes "/" = [47] := by decide

theorem scenarioRegistry_packages :
    scenarioRegistry.packages = [(bytes "/foo", fooRecord), (bytes "/foo/sub", subRecord)] := by
  decide

/-- `LastIndex` with a separator of one byte: -1 when the byte does not occur,
otherwise the position of its last occurrence. -/
theorem LastIndex_single (c : Nat) (s : GoString) :
    (LastIndex s [c] = -1 ∧ c ∉ s) ∨
    (∃ i : Nat, LastIndex s [c] = (i : Int) ∧ i < s.length ∧ s.getD i 0 = c ∧
      ∀ j, i < j → j < s.length → s.getD j 0 ≠ c) := by
  induction s with
  | nil => left; simp [LastIndex]
  | cons a t ih =>
    rcases ih with ⟨h1, h2⟩ | ⟨i, h1, h2, h3, h4⟩
    · by_cases hac : c = a
      · subst hac
        right
        refine ⟨0, ?_, by simp, by simp, ?_⟩
        · simp [LastIndex, h1, List.isPrefixOf]
        · intro j hj0 hjl hj
          obtain ⟨k, rfl⟩ : ∃ k, j = k + 1 := ⟨j - 1, by omega⟩
          simp only [List.getD_cons_succ] at hj
          have hk : k < t.length := by simpa using hjl
          apply h2
          rw [← hj, List.getD_eq_getElem _ _ hk]
          exact List.getElem_mem _
      · left
        refine ⟨?_, ?_⟩
        · simp [LastIndex, h1, List.isPrefixOf, hac]
        · simp [hac, h2]
    · right
      refine ⟨i + 1, ?_, by simpa using h2, ?_, ?_⟩
      · simp [LastIndex, h1]
      · simpa using h3
      · intro j hj0 hjl
        obtain ⟨k, rfl⟩ : ∃ k, j = k + 1 := ⟨j - 1, by omega⟩
        simp only [List.getD_cons_succ]
        exact h4 k (by omega) (by simpa using hjl)

theorem cuts_eq_nil (p : GoString) :
    ∀ n, (∀ j, j < n → p.getD j 0 ≠ 47) → cuts p n = [] := by
  intro n
  induction n with
  | zero => intro _; rfl
  | succ n ih =>
    intro h
    simp only [cuts]
    rw [if_neg (h n (Nat.lt_succ_self n))]
    exact ih (fun j hj => h j (Nat.lt_succ_of_lt hj))

theorem cuts_eq_cons (p : GoString) (i : Nat) (hi : p.getD i 0 = 47) :
    ∀ n, i < n → (∀ j, i < j → j < n → p.getD j 0 ≠ 47) →
      cuts p n = p.take i :: cuts p i := by
  intro n
  induction n with
  | zero => intro h; omega
  | succ n ih =>
    intro hin h
    simp only [cuts]
    by_cases hn : i = n
    · subst hn
      rw [if_pos hi]
    · have hlt : i < n := by omega
      rw [if_neg (h n hlt (Nat.lt_succ_self n))]
      exact ih hlt (fun j h1 h2 => h j h1 (Nat.lt_succ_of_lt h2))

theorem getD_take (p : GoString) (i n : Nat) (h : n < i) :
    (p.take i).getD n 0 = p.getD n 0 := by
  simp [List.getD_eq_getElem?_getD, List.getElem?_take, h]

theorem cuts_take (p : GoString) (i : Nat) :
    ∀ n, n ≤ i → cuts (p.take i) n = cuts p n := by
  intro n
  induction n with
  | zero => intro _; rfl
  | succ n ih =>
    intro h
    simp only [cuts]
    rw [getD_take p i n (by omega), List.take_take, Nat.min_eq_left (by omega), ih (by omega)]

/-- What the loop of `getPackage` computes from a candidate: the record of the
first candidate prefix that is a key; when there is none, not-found if the
candidate is empty or begins with a slash, and else the panic of slicing
with the bound -1. -/
theorem getPackageLoop_eq (m : GoMap Package) :
    ∀ fuel cand, cand.length < fuel →
      getPackageLoop m fuel cand =
        match (candidatePrefixes cand).findSome? m.find with
        | some r => .ok (some r)
        | none =>
          if cand = [] ∨ cand.head? = some 47 then .ok none
          else .error (.sliceBoundsOutOfRange (-1)) := by
  intro fuel
  induction fuel with
  | zero => intro cand h; omega
  | succ fuel ih =>
    intro cand hlen
    simp only [getPackageLoop]
    by_cases hc : cand = []
    · subst hc
      simp [candidatePrefixes, cuts]
    · rw [if_neg hc]
      have hcp : candidatePrefixes cand
          = cand :: (cuts cand cand.length).filter (fun q => !q.isEmpty) := by
        cases cand with
        | nil => exact absurd rfl hc
        | cons a t => simp [candidatePrefixes, List.filter]
      rw [hcp, List.findSome?_cons]
      cases hf : m.find cand with
      | some pkg => rfl
      | none =>
        simp only [bytes_slash]
        rcases LastIndex_single 47 cand with ⟨h1, h2⟩ | ⟨i, h1, h2, h3, h4⟩
        · rw [h1]
          have hs : sliceTo cand (-1) = .error (.sliceBoundsOutOfRange (-1)) := by
            simp [sliceTo]
          rw [hs, cuts_eq_nil cand cand.length]
          · have hh : cand.head? ≠ some 47 := by
              cases cand with
              | nil => exact absurd rfl hc
              | cons a t =>
                intro h
                simp at h
                subst h
                exact h2 (List.mem_cons_self _ _)
            simp [hc, hh]
          · intro j hj h
            apply h2
            rw [← h, List.getD_eq_getElem _ _ hj]
            exact List.getElem_mem _
        · rw [h1]
          have hs : sliceTo cand (i : Int) = .ok (cand.take i) := by
            simp [sliceTo]
            omega
          rw [hs]
          simp only []
          rw [ih (cand.take i) (by simp; omega)]
          have hcuts : cuts cand cand.length = cand.take i :: cuts cand i :=
            cuts_eq_cons cand i h3 cand.length h2 h4
          have hlen2 : (cand.take i).length = i := by simp; omega
          have hcp2 : candidatePrefixes (cand.take i)
              = (cuts cand cand.length).filter (fun q => !q.isEmpty) := by
            rw [hcuts]
            simp only [candidatePrefixes]
            rw [hlen2, cuts_take cand i i (le_refl i)]
          rw [hcp2]
          have hcond : (cand.take i = [] ∨ (cand.take i).head? = some 47)
              ↔ (cand = [] ∨ cand.head? = some 47) := by
            cases cand with
            | nil => exact absurd rfl hc
            | cons a t =>
              cases i with
              | zero => simp at h3; simp [h3]
              | succ k => simp
          simp only [hcond]

/-- What `getPackage` computes: the record under the path when it is a key,
and otherwise what the loop gives. -/
theorem getPackage_eq (pl : PackageList) (p : GoString) :
    getPackage pl p =
      match pl.packages.find p with
      | some r => .ok (some r)
      | none =>
        match (candidatePrefixes p).findSome? pl.packages.find with
        | some r => .ok (some r)
        | none =>
          if p = [] ∨ p.head? = some 47 then .ok none
          else .error (.sliceBoundsOutOfRange (-1)) := by
  simp only [getPackage]
  cases pl.packages.find p with
  | some r => rfl
  | none => exact getPackageLoop_eq pl.packages (p.length + 1) p (Nat.lt_succ_self _)

/-- Every candidate prefix is a non-empty initial part of the path. -/
theorem candidatePrefixes_isPrefix (p q : GoString) (h : q ∈ candidatePrefixes p) :
    q ≠ [] ∧ q <+: p := by
  have hcuts : ∀ n, ∀ q ∈ cuts p n, q <+: p := by
    intro n
    induction n with
    | zero => intro q hq; simp [cuts] at hq
    | succ n ih =>
      intro q hq
      simp only [cuts] at hq
      split at hq
      · rcases List.mem_cons.1 hq with rfl | hq
        · exact List.take_prefix _ _
        · exact ih q hq
      · exact ih q hq
  simp only [candidatePrefixes, List.mem_filter, List.mem_cons] at h
  refine ⟨?_, ?_⟩
  · intro hq
    simp [hq] at h
  · rcases h.1 with rfl | hq
    · exact List.prefix_refl _
    · exact hcuts _ q hq

theorem mem_cuts (p q : GoString) :
    ∀ n, q ∈ cuts p n ↔ ∃ i, i < n ∧ p.getD i 0 = 47 ∧ q = p.take i := by
  intro n
  induction n with
  | zero => simp [cuts]
  | succ n ih =>
    simp only [cuts]
    constructor
    · intro h
      split at h
      · rename_i h47
        rcases List.mem_cons.1 h with rfl | h
        · exact ⟨n, Nat.lt_succ_self n, h47, rfl⟩
        · obtain ⟨i, hi, h1, h2⟩ := ih.1 h
          exact ⟨i, Nat.lt_succ_of_lt hi, h1, h2⟩
      · obtain ⟨i, hi, h1, h2⟩ := ih.1 h
        exact ⟨i, Nat.lt_succ_of_lt hi, h1, h2⟩
    · rintro ⟨i, hi, h1, h2⟩
      by_cases hin : i = n
      · subst hin
        rw [if_pos h1, h2]
        exact List.mem_cons_self _ _
      · have hmem : q ∈ cuts p n := ih.2 ⟨i, by omega, h1, h2⟩
        split
        · exact List.mem_cons_of_mem _ hmem
        · exact hmem

theorem slash_isPrefix_iff (p q : GoString) :
    q ++ [47] <+: p ↔ ∃ i, i < p.length ∧ p.getD i 0 = 47 ∧ q = p.take i := by
  constructor
  · rintro ⟨t, rfl⟩
    refine ⟨q.length, by simp, ?_, by simp⟩
    rw [List.getD_eq_getElem _ _ (by simp)]
    simp only [List.append_assoc]
    rw [List.getElem_append_right (le_refl _)]
    simp
  · rintro ⟨i, hi, h1, rfl⟩
    refine ⟨p.drop (i + 1), ?_⟩
    rw [List.getD_eq_getElem _ _ hi] at h1
    rw [List.append_assoc, List.singleton_append, ← h1, ← List.drop_eq_getElem_cons hi,
      List.take_append_drop]

/-- The candidate prefixes of a path are its non-empty initial parts that end
at a segment boundary: the path itself, and every part that is followed by a
slash in the path. -/
theorem mem_candidatePrefixes (p q : GoString) :
    q ∈ candidatePrefixes p ↔ q ≠ [] ∧ (q = p ∨ q ++ [47] <+: p) := by
  simp only [candidatePrefixes, List.mem_filter, List.mem_cons, mem_cuts, slash_isPrefix_iff]
  constructor
  · rintro ⟨h, hq⟩
    refine ⟨?_, h⟩
    intro hq0
    simp [hq0] at hq
  · rintro ⟨hq, h⟩
    refine ⟨h, ?_⟩
    cases q with
    | nil => exact absurd rfl hq
    | cons a t => rfl

/-- The candidate prefixes stand from the longest to the shortest. -/
theorem candidatePrefixes_sorted (p : GoString) :
    (candidatePrefixes p).Pairwise (fun a b => b.length < a.length) := by
  have hcuts : ∀ n, n ≤ p.length →
      (cuts p n).Pairwise (fun a b => b.length < a.length) ∧
        ∀ q ∈ cuts p n, q.length < n := by
    intro n
    induction n with
    | zero => intro _; simp [cuts]
    | succ n ih =>
      intro hn
      obtain ⟨h1, h2⟩ := ih (by omega)
      simp only [cuts]
      split
      · refine ⟨List.pairwise_cons.2 ⟨?_, h1⟩, ?_⟩
        · intro q hq
          have := h2 q hq
          simp only [List.length_take]
          omega
        · intro q hq
          rcases List.mem_cons.1 hq with rfl | hq
          · simp only [List.length_take]
            omega
          · have := h2 q hq
            omega
      · exact ⟨h1, fun q hq => Nat.lt_succ_of_lt (h2 q hq)⟩
  obtain ⟨h1, h2⟩ := hcuts p.length (le_refl _)
  exact List.Pairwise.filter _ (List.pairwise_cons.2 ⟨h2, h1⟩)

/-- C1: when a candidate prefix of the path (the path itself, then what is
left each time the final slash-delimited segment is removed with its slash,
longest first) is a key, `getPackage` returns the record stored under the
first such candidate; in the scenario registry with `/foo` and `/foo/sub`,
`/foo/sub/x` gives the record of `/foo/sub`, `/foo/other` the record of
`/foo`, and `/bar` is not found. -/
theorem getPackage_first_candidate :
    (∀ (pl : PackageList) (p : GoString) (r : Package),
        (candidatePrefixes p).findSome? pl.packages.find = some r →
          getPackage pl p = .ok (some r)) ∧
    getPackage scenarioRegistry (bytes "/foo/sub/x") = .ok (some subRecord) ∧
    getPackage scenarioRegistry (bytes "/foo/other") = .ok (some fooRecord) ∧
    getPackage scenarioRegistry (bytes "/bar") = .ok none := by
  refine ⟨?_, by decide, by decide, by decide⟩
  intro pl p r h
  rw [getPackage_eq]
  cases hf : pl.packages.find p with
  | none => simp only [h]
  | some r0 =>
    have hp : p ≠ [] := by
      intro hp
      subst hp
      simp [candidatePrefixes, cuts] at h
    have hcp : candidatePrefixes p
        = p :: (cuts p p.length).filter (fun q => !q.isEmpty) := by
      cases p with
      | nil => exact absurd rfl hp
      | cons a t => simp [candidatePrefixes, List.filter]
    rw [hcp, List.findSome?_cons, hf] at h
    simp only [] at h
    rw [h]

/-- Witness of C1: the candidates of `/foo/sub/x/y`, and its lookup in the scenario. -/
theorem getPackage_first_candidate_witness :
    candidatePrefixes (bytes "/foo/sub/x/y")
      = [bytes "/foo/sub/x/y", bytes "/foo/sub/x", bytes "/foo/sub", bytes "/foo"] ∧
    getPackage scenarioRegistry (bytes "/foo/sub/x/y") = .ok (some subRecord) :=
  ⟨by decide, getPackage_first_candidate.1 scenarioRegistry (bytes "/foo/sub/x/y") subRecord
    (by decide)⟩

/-- C2 (the code departs from it): a path without any slash that is not a key
does not give not-found: the loop slices the candidate with the bound -1 that
`strings.LastIndex` returned, and the call panics. -/
theorem getPackage_no_slash_panics :
    getPackage emptyRegistry (bytes "foo") = .error (.sliceBoundsOutOfRange (-1)) := by
  decide

/-- C3: a path that is a key gives exactly the record stored under it. -/
theorem getPackage_exact (pl : PackageList) (p : GoString) (r : Package)
    (h : pl.packages.find p = some r) : getPackage pl p = .ok (some r) := by
  simp only [getPackage, h]

/-- Witness of C3: `/foo/sub` is a key of the scenario registry, and so is its
shorter prefix `/foo`; the lookup gives the record of `/foo/sub`. -/
theorem getPackage_exact_witness :
    scenarioRegistry.packages.find (bytes "/foo") = some fooRecord ∧
    getPackage scenarioRegistry (bytes "/foo/sub") = .ok (some subRecord) :=
  ⟨by decide, getPackage_exact scenarioRegistry (bytes "/foo/sub") subRecord (by decide)⟩

/-! ## Records: `NewPackage` -/

/-- A line with `n < 3` fields makes `NewPackage` panic on `fields[n]`. -/
theorem NewPackage_few_fields (line : GoString) (h : (Fields line).length < 3) :
    NewPackage line
      = .error (.indexOutOfRange (Fields line).length (Fields line).length) := by
  simp only [NewPackage]
  generalize Fields line = fs at h ⊢
  match fs, h with
  | [], _ => simp [index]
  | [_], _ => simp [index]
  | [_, _], _ => simp [index]
  | _ :: _ :: _ :: _, h => simp at h; omega

/-- A line with at least three fields gives the record of its first fields. -/
theorem NewPackage_three_fields (line : GoString) (h : 3 ≤ (Fields line).length) :
    NewPackage line
      = .ok { Path := (Fields line).getD 0 [], Vcs := (Fields line).getD 1 [],
              Repo := (Fields line).getD 2 [],
              Doc := if 3 < (Fields line).length then (Fields line).getD 3 [] else [] } := by
  simp only [NewPackage]
  generalize Fields line = fs at h ⊢
  match fs, h with
  | [], h => simp at h
  | [_], h => simp at h
  | [_, _], h => simp at h
  | [_, _, _], _ => simp [index]
  | _ :: _ :: _ :: _ :: _, _ => simp [index]

/-- A line with fewer than three fields gives no record: `NewPackage` panics
on the index of the first missing field. -/
theorem NewPackage_malformed (line : GoString) (h : (Fields line).length < 3) :
    NewPackage line
        = .error (.indexOutOfRange (Fields line).length (Fields line).length) ∧
    ∀ pkg, NewPackage line ≠ .ok pkg := by
  refine ⟨NewPackage_few_fields line h, ?_⟩
  intro pkg hp
  rw [NewPackage_few_fields line h] at hp
  cases hp

/-- Example: the line `/onlypath` has one field. -/
theorem NewPackage_malformed_example :
    NewPackage (bytes "/onlypath") = .error (.indexOutOfRange 1 1) :=
  (NewPackage_malformed (bytes "/onlypath") (by decide)).1

/-- C5: a line with at least three fields gives the record whose `Path`, `Vcs`
and `Repo` are its first three fields as they stand, and whose `Doc` is the
fourth field, or the empty string when there are exactly three. -/
theorem NewPackage_fields (line : GoString) (h : 3 ≤ (Fields line).length) :
    NewPackage line
      = .ok { Path := (Fields line).getD 0 [], Vcs := (Fields line).getD 1 [],
              Repo := (Fields line).getD 2 [],
              Doc := if 3 < (Fields line).length then (Fields line).getD 3 [] else [] } :=
  NewPackage_three_fields line h

/-- Witness of C5: the trailing slash of the path stays, and the fourth field is the `Doc`. -/
theorem NewPackage_fields_witness :
    NewPackage (bytes "  /foo/ git  https://example.com/foo\thttps://docs.example.com/foo extra")
      = .ok { Path := bytes "/foo/", Vcs := bytes "git", Repo := bytes "https://example.com/foo",
              Doc := bytes "https://docs.example.com/foo" } ∧
    NewPackage (bytes "/foo/ git https://example.com/foo")
      = .ok { Path := bytes "/foo/", Vcs := bytes "git", Repo := bytes "https://example.com/foo",
              Doc := [] } :=
  ⟨(NewPackage_fields _ (by decide)).trans (by decide),
   (NewPackage_fields _ (by decide)).trans (by decide)⟩

/-! ## Loading: `loadPackages` and `NewPackageList` -/

theorem ReadLine_empty (rd : Reader) (h : rd.pending = []) :
    (ReadLine rd).err = some rd.endError := by
  have hne : rd.endError ≠ Error.ErrBufferFull := by
    simp only [Reader.endError]
    cases rd.fault <;> simp
  simp [ReadLine, ReadSlice, h, defaultBufSize, hne]

theorem ReadLine_nonempty (rd : Reader) (h : rd.pending ≠ []) :
    (ReadLine rd).err = none ∧ (ReadLine rd).rd.pending.length < rd.pending.length ∧
      (ReadLine rd).rd.fault = rd.fault := by
  have hne : rd.endError ≠ Error.ErrBufferFull := by
    simp only [Reader.endError]
    cases rd.fault <;> simp
  have hpos : 0 < rd.pending.length := List.length_pos.2 h
  simp only [ReadLine, ReadSlice]
  by_cases h1 : 10 ∈ rd.pending.take defaultBufSize
  · simp only [if_pos h1]
    have hlen : (rd.pending.take (List.indexOf 10 (rd.pending.take defaultBufSize) + 1)).length
        ≠ 0 := by
      simp only [List.length_take]
      omega
    simp only [reduceCtorEq, if_false, hlen]
    split <;> (simp only [List.length_drop]; refine ⟨trivial, ?_, trivial⟩; omega)
  · simp only [if_neg h1]
    by_cases h2 : defaultBufSize ≤ rd.pending.length
    · simp only [if_pos h2, if_true]
      have hb : defaultBufSize = 4096 := rfl
      split <;> (simp only [List.length_drop, List.length_cons]; refine ⟨trivial, ?_, trivial⟩; omega)
    · simp only [if_neg h2]
      have hne2 : ¬ (some rd.endError = some Error.ErrBufferFull) := by
        intro hh
        exact hne (Option.some.inj hh)
      have hlen : rd.pending.length ≠ 0 := by omega
      simp only [if_neg hne2, hlen, if_false]
      split <;> (simp only [List.length_nil]; refine ⟨trivial, ?_, trivial⟩; omega)

theorem readLines_fuel_eq :
    ∀ fuel fuel2 rd, rd.pending.length < fuel → rd.pending.length < fuel2 →
      readLines fuel rd = readLines fuel2 rd := by
  intro fuel
  induction fuel with
  | zero => intro fuel2 rd h; omega
  | succ fuel ih =>
    intro fuel2 rd h h2
    cases fuel2 with
    | zero => omega
    | succ fuel2 =>
      simp only [readLines]
      by_cases hp : rd.pending = []
      · rw [ReadLine_empty rd hp]
      · obtain ⟨h1, h3, _⟩ := ReadLine_nonempty rd hp
        rw [h1]
        simp only []
        rw [ih fuel2 _ (by omega) (by omega)]

theorem readLines_fuel (fuel : Nat) (rd : Reader) (h : rd.pending.length < fuel) :
    readLines fuel rd = rd.lines :=
  readLines_fuel_eq fuel _ rd h (Nat.lt_succ_self _)

theorem lines_nil (rd : Reader) (h : rd.pending = []) : rd.lines = [] := by
  simp only [Reader.lines, readLines, ReadLine_empty rd h]

theorem lines_cons (rd : Reader) (h : rd.pending ≠ []) :
    rd.lines = (ReadLine rd).line :: (ReadLine rd).rd.lines := by
  obtain ⟨h1, h2, _⟩ := ReadLine_nonempty rd h
  rw [← readLines_fuel (rd.pending.length + 1) rd (Nat.lt_succ_self _)]
  simp only [readLines, h1]
  rw [readLines_fuel _ _ (by omega)]

/-- `ReadLine` on a line that fits the buffer and ends in a line feed: the
line without the line feed and without a carriage return before it. -/
theorem ReadLine_terminated (l rest : GoString) (ft : Option GoString)
    (h10 : 10 ∉ l) (hlen : l.length < defaultBufSize) :
    ReadLine { pending := l ++ 10 :: rest, fault := ft }
      = { line := dropCR l, isPrefix := false, err := none,
          rd := { pending := rest, fault := ft } } := by
  have hb : defaultBufSize = 4096 := rfl
  have hw : (l ++ 10 :: rest).take defaultBufSize
      = l ++ 10 :: rest.take (defaultBufSize - l.length - 1) := by
    rw [List.take_append_eq_append_take, List.take_of_length_le (by omega)]
    obtain ⟨k, hk⟩ : ∃ k, defaultBufSize - l.length = k + 1 := ⟨defaultBufSize - l.length - 1, by omega⟩
    rw [hk, List.take_succ_cons]
    simp
  have hmem : 10 ∈ (l ++ 10 :: rest).take defaultBufSize := by
    rw [hw]
    simp
  have hidx : List.indexOf 10 ((l ++ 10 :: rest).take defaultBufSize) = l.length := by
    rw [hw, List.indexOf_append_of_not_mem h10, List.indexOf_cons_self]
    rfl
  have htake : (l ++ 10 :: rest).take (l.length + 1) = l ++ [10] := by
    rw [List.take_append_eq_append_take, List.take_of_length_le (by omega)]
    simp
  have hdrop : (l ++ 10 :: rest).drop (l.length + 1) = rest := by
    have : l ++ 10 :: rest = (l ++ [10]) ++ rest := by simp
    rw [this]
    exact List.drop_left' (by simp)
  simp only [ReadLine, ReadSlice, if_pos hmem, hidx, htake, hdrop, reduceCtorEq, if_false]
  have hlen0 : (l ++ [10]).length ≠ 0 := by simp
  simp only [hlen0, if_false, List.getLast?_concat, if_true]
  congr 1
  clear hw hmem hidx htake hdrop hlen0 h10 hlen
  rcases List.eq_nil_or_concat l with rfl | ⟨l2, c, rfl⟩
  · simp [dropCR]
  · simp only [List.concat_eq_append]
    have hget : (l2 ++ [c] ++ [10]).getD ((l2 ++ [c] ++ [10]).length - 2) 0 = c := by
      have hi : (l2 ++ [c] ++ [10]).length - 2 = l2.length := by simp
      rw [hi, List.getD_eq_getElem _ _ (by simp)]
      simp only [List.append_assoc]
      rw [List.getElem_append_right (le_refl _)]
      simp
    have hgt : (l2 ++ [c] ++ [10]).length > 1 := by simp
    rw [hget]
    by_cases hc : c = 13
    · subst hc
      simp only [dropCR, List.getLast?_concat, if_true, List.dropLast_concat, hgt, and_self]
      have : (l2 ++ [13] ++ [10]).length - 2 = l2.length := by simp
      rw [this]
      simp only [List.append_assoc]
      exact List.take_left _ _
    · have hc2 : ¬ (some c = some 13) := fun h => hc (Option.some.inj h)
      simp only [dropCR, List.getLast?_concat, if_neg hc2, hc, and_false, if_false]
      have : (l2 ++ [c] ++ [10]).length - 1 = (l2 ++ [c]).length := by simp
      rw [this]
      exact List.take_left _ _

/-- `ReadLine` on a last line that fits the buffer and has no line feed. -/
theorem ReadLine_unterminated (l : GoString) (ft : Option GoString)
    (hne : l ≠ []) (h10 : 10 ∉ l) (hlen : l.length < defaultBufSize) :
    ReadLine { pending := l, fault := ft }
      = { line := l, isPrefix := false, err := none,
          rd := { pending := [], fault := ft } } := by
  have hw : l.take defaultBufSize = l := List.take_of_length_le (by omega)
  have hne2 : (Reader.mk l ft).endError ≠ Error.ErrBufferFull := by
    simp only [Reader.endError]
    cases ft <;> simp
  have hne3 : ¬ (some (Reader.mk l ft).endError = some Error.ErrBufferFull) :=
    fun h => hne2 (Option.some.inj h)
  have hlen0 : l.length ≠ 0 := fun h => hne (List.length_eq_zero.1 h)
  have hlast : ¬ (l.getLast? = some 10) := by
    intro h
    exact h10 (List.mem_of_getLast?_eq_some h)
  simp only [ReadLine, ReadSlice, hw, if_neg h10, if_neg (Nat.not_le.2 hlen), if_neg hne3,
    hlen0, if_false, if_neg hlast]

/-- `ReadLine` on a line that does not fit the buffer: the first
`defaultBufSize` bytes are handed out as a line of their own (with
`isPrefix` set, which `loadPackages` does not look at), and the rest of the
line stays for the next call. -/
theorem ReadLine_full_buffer (chunk rest : GoString) (ft : Option GoString)
    (hlen : chunk.length = defaultBufSize) (h10 : 10 ∉ chunk)
    (hcr : chunk.getLast? ≠ some 13) :
    ReadLine { pending := chunk ++ rest, fault := ft }
      = { line := chunk, isPrefix := true, err := none,
          rd := { pending := rest, fault := ft } } := by
  have hw : (chunk ++ rest).take defaultBufSize = chunk := List.take_left' hlen
  have hd : (chunk ++ rest).drop defaultBufSize = rest := List.drop_left' hlen
  have hle : defaultBufSize ≤ (chunk ++ rest).length := by
    simp only [List.length_append]
    omega
  simp only [ReadLine, ReadSlice, hw, hd, if_neg h10, if_pos hle, if_true, if_neg hcr]

/-- When every line of a file fits the buffer, the lines that the loader
reads are the lines of the file, each without the carriage return and line
feed that end it. -/
theorem lines_of_short_lines (ft : Option GoString) (last : GoString)
    (hlast : 10 ∉ last ∧ last.length < defaultBufSize) :
    ∀ ls : List GoString, (∀ l ∈ ls, 10 ∉ l ∧ l.length < defaultBufSize) →
      (Reader.mk (joinLines ls last) ft).lines
        = ls.map dropCR ++ (if last = [] then [] else [last]) := by
  intro ls
  induction ls with
  | nil =>
    intro _
    by_cases hl : last = []
    · subst hl
      exact lines_nil _ rfl
    · have hp : (Reader.mk (joinLines [] last) ft).pending = last := by simp [joinLines]
      rw [lines_cons _ (by rw [hp]; exact hl)]
      simp only [joinLines, List.flatMap_nil, List.nil_append,
        ReadLine_unterminated last ft hl hlast.1 hlast.2, if_neg hl, List.map_nil]
      rw [lines_nil _ rfl]
  | cons l rest ih =>
    intro h
    obtain ⟨h10, hlen⟩ := h l (List.mem_cons_self _ _)
    have hj : joinLines (l :: rest) last = l ++ 10 :: joinLines rest last := by
      simp [joinLines]
    rw [hj, lines_cons _ (by simp), ReadLine_terminated l _ ft h10 hlen]
    simp only [List.map_cons, List.cons_append]
    rw [ih (fun l2 hl2 => h l2 (List.mem_cons_of_mem _ hl2))]

/-- The loop of `loadPackages` handles the lines that `ReadLine` hands out one
after the other, and then ends with the error that ends the stream. -/
theorem loadLoop_eq :
    ∀ fuel rd pkgs, rd.pending.length < fuel →
      loadLoop fuel rd pkgs =
        match addLines rd.lines pkgs with
        | .error p => .error p
        | .ok m =>
          match rd.fault with
          | none => .ok (.ok m)
          | some msg => .ok (.error (.os msg)) := by
  intro fuel
  induction fuel with
  | zero => intro rd pkgs h; omega
  | succ fuel ih =>
    intro rd pkgs h
    by_cases hp : rd.pending = []
    · rw [lines_nil rd hp]
      simp only [loadLoop, ReadLine_empty rd hp, addLines, Reader.endError]
      cases rd.fault <;> simp
    · obtain ⟨h1, h2, h3⟩ := ReadLine_nonempty rd hp
      rw [lines_cons rd hp]
      simp only [loadLoop, h1, addLines, reduceCtorEq, if_false]
      by_cases hb : (TrimSpace (ReadLine rd).line).length > 0
      · simp only [if_pos hb]
        cases NewPackage (ReadLine rd).line with
        | error p => rfl
        | ok pkg =>
          simp only []
          rw [ih _ _ (by omega), h3]
      · simp only [if_neg hb]
        rw [ih _ _ (by omega), h3]

/-- What `loadPackages` does, in terms of the lines of the backing file. -/
theorem loadPackages_eq (fs : FileSystem) (pl : PackageList) (f : Reader)
    (hopen : fs pl.file = .ok f) :
    loadPackages fs pl =
      match addLines f.lines [] with
      | .error p => (pl, .error p)
      | .ok m =>
        match f.fault with
        | none => ({ pl with packages := m }, .ok none)
        | some msg => (pl, .ok (some (.os msg))) := by
  simp only [loadPackages, hopen]
  rw [loadLoop_eq _ f [] (Nat.lt_succ_self _)]
  cases addLines f.lines [] with
  | error p => rfl
  | ok m => cases f.fault <;> rfl

theorem NewPackageList_eq (fs : FileSystem) (pkgFile masqHost : GoString) (f : Reader)
    (hopen : fs pkgFile = .ok f) :
    NewPackageList fs pkgFile masqHost =
      match addLines f.lines [] with
      | .error p => .error p
      | .ok m =>
        match f.fault with
        | none => .ok (.ok { packages := m, file := pkgFile, masqHost := masqHost })
        | some msg => .ok (.error (.os msg)) := by
  simp only [NewPackageList]
  rw [loadPackages_eq fs _ f hopen]
  cases addLines f.lines [] with
  | error p => rfl
  | ok m => cases f.fault <;> rfl

/-- A non-blank line with fewer than three fields among the lines makes the
loop body panic at the first such line, whatever was built before. -/
theorem addLines_malformed :
    ∀ (ls : List GoString) (pkgs : GoMap Package),
      (∃ l ∈ ls, nonBlank l = true ∧ (Fields l).length < 3) →
      ∃ l ∈ ls, nonBlank l = true ∧ (Fields l).length < 3 ∧
        addLines ls pkgs
          = .error (.indexOutOfRange (Fields l).length (Fields l).length) := by
  intro ls
  induction ls with
  | nil => intro pkgs h; obtain ⟨l, hl, _⟩ := h; cases hl
  | cons a rest ih =>
    intro pkgs h
    by_cases hbad : nonBlank a = true ∧ (Fields a).length < 3
    · refine ⟨a, List.mem_cons_self _ _, hbad.1, hbad.2, ?_⟩
      have hb : (TrimSpace a).length > 0 := by simpa [nonBlank] using hbad.1
      simp only [addLines, if_pos hb, NewPackage_few_fields a hbad.2]
    · have h2 : ∃ l ∈ rest, nonBlank l = true ∧ (Fields l).length < 3 := by
        obtain ⟨l, hl, hl2⟩ := h
        rcases List.mem_cons.1 hl with rfl | hl
        · exact absurd hl2 hbad
        · exact ⟨l, hl, hl2⟩
      by_cases hb : (TrimSpace a).length > 0
      · have hnb : nonBlank a = true := by simpa [nonBlank] using hb
        have h3 : 3 ≤ (Fields a).length := by
          by_contra hc
          exact hbad ⟨hnb, by omega⟩
        obtain ⟨l, hl, hl1, hl2, hl3⟩ :=
          ih (pkgs.insert ((Fields a).getD 0 []) _) h2
        refine ⟨l, List.mem_cons_of_mem _ hl, hl1, hl2, ?_⟩
        simp only [addLines, if_pos hb, NewPackage_three_fields a h3]
        exact hl3
      · obtain ⟨l, hl, hl1, hl2, hl3⟩ := ih pkgs h2
        refine ⟨l, List.mem_cons_of_mem _ hl, hl1, hl2, ?_⟩
        simp only [addLines, if_neg hb]
        exact hl3

/-! ### Maps -/

theorem GoMap.find_insert {V : Type} (m : GoMap V) (k : GoString) (v : V) (k2 : GoString) :
    (m.insert k v).find k2 = if k = k2 then some v else m.find k2 := by
  induction m with
  | nil => simp [GoMap.insert, GoMap.find]
  | cons e rest ih =>
    obtain ⟨k1, v1⟩ := e
    simp only [GoMap.insert]
    by_cases h1 : k1 = k
    · subst h1
      simp only [if_true, GoMap.find]
      by_cases h2 : k1 = k2 <;> simp [h2]
    · simp only [if_neg h1, GoMap.find, ih]
      by_cases h2 : k1 = k2
      · subst h2
        simp [h1, Ne.symm h1]
      · simp [h2]

theorem GoMap.mem_keys_insert {V : Type} (m : GoMap V) (k : GoString) (v : V) (k2 : GoString) :
    k2 ∈ (m.insert k v).keys ↔ k2 = k ∨ k2 ∈ m.keys := by
  induction m with
  | nil => simp [GoMap.insert, GoMap.keys]
  | cons e rest ih =>
    obtain ⟨k1, v1⟩ := e
    simp only [GoMap.keys] at ih
    simp only [GoMap.insert, GoMap.keys]
    by_cases h1 : k1 = k
    · subst h1
      simp
    · simp only [if_neg h1, List.map_cons, List.mem_cons, ih]
      tauto

theorem GoMap.nodup_keys_insert {V : Type} (m : GoMap V) (k : GoString) (v : V)
    (h : m.keys.Nodup) : (m.insert k v).keys.Nodup := by
  induction m with
  | nil => simp [GoMap.insert, GoMap.keys]
  | cons e rest ih =>
    obtain ⟨k1, v1⟩ := e
    simp only [GoMap.keys, List.map_cons, List.nodup_cons] at h
    by_cases h1 : k1 = k
    · subst h1
      simp only [GoMap.insert, if_true, GoMap.keys, List.map_cons, List.nodup_cons]
      exact h
    · simp only [GoMap.insert, if_neg h1]
      have h3 := (GoMap.mem_keys_insert rest k v k1)
      simp only [GoMap.keys] at h3 ih
      simp only [GoMap.keys, List.map_cons, List.nodup_cons, h3]
      exact ⟨fun hh => hh.elim h1 h.1, ih h.2⟩

theorem lastWithPath_cons (r : Package) (rs : List Package) (k : GoString) :
    lastWithPath (r :: rs) k =
      match lastWithPath rs k with
      | some x => some x
      | none => if r.Path = k then some r else none := by
  simp only [lastWithPath, List.reverse_cons, List.find?_append]
  cases List.find? (fun r => decide (r.Path = k)) rs.reverse with
  | some x => rfl
  | none =>
    by_cases h : r.Path = k <;> simp [List.find?, h]

theorem find_insertAll :
    ∀ (rs : List Package) (m : GoMap Package) (k : GoString),
      (insertAll rs m).find k =
        match lastWithPath rs k with
        | some r => some r
        | none => m.find k := by
  intro rs
  induction rs with
  | nil => intro m k; simp [insertAll, lastWithPath]
  | cons r rs ih =>
    intro m k
    have hstep : insertAll (r :: rs) m = insertAll rs (m.insert r.Path r) := rfl
    rw [hstep, ih, lastWithPath_cons, GoMap.find_insert]
    cases lastWithPath rs k with
    | some x => rfl
    | none => by_cases h : r.Path = k <;> simp [h]

theorem mem_keys_insertAll :
    ∀ (rs : List Package) (m : GoMap Package) (k : GoString),
      k ∈ (insertAll rs m).keys ↔ k ∈ m.keys ∨ ∃ r ∈ rs, r.Path = k := by
  intro rs
  induction rs with
  | nil => intro m k; simp [insertAll]
  | cons r rs ih =>
    intro m k
    have hstep : insertAll (r :: rs) m = insertAll rs (m.insert r.Path r) := rfl
    rw [hstep, ih, GoMap.mem_keys_insert]
    simp only [List.mem_cons, exists_eq_or_imp]
    constructor
    · rintro ((h | h) | h)
      · exact Or.inr (Or.inl h.symm)
      · exact Or.inl h
      · exact Or.inr (Or.inr h)
    · rintro (h | h | h)
      · exact Or.inl (Or.inr h)
      · exact Or.inl (Or.inl h.symm)
      · exact Or.inr h

theorem nodup_keys_insertAll :
    ∀ (rs : List Package) (m : GoMap Package),
      m.keys.Nodup → (insertAll rs m).keys.Nodup := by
  intro rs
  induction rs with
  | nil => intro m h; exact h
  | cons r rs ih =>
    intro m h
    exact ih _ (GoMap.nodup_keys_insert m r.Path r h)

/-! ### The loop body over the lines -/

theorem addLines_filter :
    ∀ (ls : List GoString) (pkgs : GoMap Package),
      addLines (ls.filter nonBlank) pkgs = addLines ls pkgs := by
  intro ls
  induction ls with
  | nil => intro pkgs; rfl
  | cons a rest ih =>
    intro pkgs
    by_cases hb : (TrimSpace a).length > 0
    · have hnb : nonBlank a = true := by simpa [nonBlank] using hb
      simp only [List.filter, hnb, addLines, if_pos hb]
      cases NewPackage a with
      | error p => rfl
      | ok pkg => exact ih _
    · have hnb : nonBlank a = false := by simpa [nonBlank] using hb
      simp only [List.filter, hnb, addLines, if_neg hb]
      exact ih _

theorem addLines_ok :
    ∀ (ls : List GoString) (pkgs : GoMap Package),
      (∀ l ∈ ls, nonBlank l = true → 3 ≤ (Fields l).length) →
      addLines ls pkgs = .ok (insertAll (parsedRecords ls) pkgs) := by
  intro ls
  induction ls with
  | nil => intro pkgs _; rfl
  | cons a rest ih =>
    intro pkgs h
    have hrest : ∀ l ∈ rest, nonBlank l = true → 3 ≤ (Fields l).length :=
      fun l hl => h l (List.mem_cons_of_mem _ hl)
    by_cases hb : (TrimSpace a).length > 0
    · have hnb : nonBlank a = true := by simpa [nonBlank] using hb
      have h3 := h a (List.mem_cons_self _ _) hnb
      simp only [addLines, if_pos hb, parsedRecords, List.filterMap_cons, hnb, if_true,
        NewPackage_three_fields a h3]
      exact ih _ hrest
    · have hnb : nonBlank a = false := by simpa [nonBlank] using hb
      simp only [addLines, if_neg hb, parsedRecords, List.filterMap_cons, hnb]
      exact ih _ hrest

theorem mem_parsedRecords (ls : List GoString)
    (h : ∀ l ∈ ls, nonBlank l = true → 3 ≤ (Fields l).length) (k : GoString) :
    (∃ r ∈ parsedRecords ls, r.Path = k) ↔
      ∃ l ∈ ls, nonBlank l = true ∧ (Fields l).getD 0 [] = k := by
  simp only [parsedRecords, List.mem_filterMap]
  constructor
  · rintro ⟨r, ⟨l, hl, hr⟩, hk⟩
    by_cases hnb : nonBlank l = true
    · refine ⟨l, hl, hnb, ?_⟩
      rw [if_pos hnb, NewPackage_three_fields l (h l hl hnb)] at hr
      simp only [Option.some.injEq] at hr
      rw [← hk, ← hr]
    · rw [if_neg hnb] at hr
      cases hr
  · rintro ⟨l, hl, hnb, hk⟩
    refine ⟨{ Path := (Fields l).getD 0 [], Vcs := (Fields l).getD 1 [],
              Repo := (Fields l).getD 2 [],
              Doc := if 3 < (Fields l).length then (Fields l).getD 3 [] else [] },
      ⟨l, hl, ?_⟩, hk⟩
    rw [if_pos hnb, NewPackage_three_fields l (h l hl hnb)]

/-! ### The claims on loading -/

/-- C6: when a line that the loader reads is non-blank and has fewer than
three fields, the load fails as a whole: `loadPackages` panics at the first
such line and leaves the registry as it was, and `NewPackageList` returns no
registry. -/
theorem load_malformed_installs_nothing (fs : FileSystem) (pl : PackageList) (f : Reader)
    (hopen : fs pl.file = .ok f)
    (hbad : ∃ l ∈ f.lines, nonBlank l = true ∧ (Fields l).length < 3) :
    ∃ l ∈ f.lines, nonBlank l = true ∧ (Fields l).length < 3 ∧
      loadPackages fs pl
        = (pl, .error (.indexOutOfRange (Fields l).length (Fields l).length)) ∧
      NewPackageList fs pl.file pl.masqHost
        = .error (.indexOutOfRange (Fields l).length (Fields l).length) := by
  obtain ⟨l, hl, h1, h2, h3⟩ := addLines_malformed f.lines [] hbad
  refine ⟨l, hl, h1, h2, ?_, ?_⟩
  · rw [loadPackages_eq fs pl f hopen, h3]
  · rw [NewPackageList_eq fs pl.file pl.masqHost f hopen, h3]

/-- Witness of C6: the line `/onlypath` between two good lines; the scenario
registry stays as it was. -/
theorem load_malformed_installs_nothing_witness :
    loadPackages (fileWith (bytes "/a git u\n/onlypath\n/b hg v\n")) scenarioRegistry
      = (scenarioRegistry, .error (.indexOutOfRange 1 1)) ∧
    ∃ l ∈ (Reader.mk (bytes "/a git u\n/onlypath\n/b hg v\n") none).lines,
      nonBlank l = true ∧ (Fields l).length < 3 ∧
      loadPackages (fileWith (bytes "/a git u\n/onlypath\n/b hg v\n")) scenarioRegistry
        = (scenarioRegistry, .error (.indexOutOfRange (Fields l).length (Fields l).length)) ∧
      NewPackageList (fileWith (bytes "/a git u\n/onlypath\n/b hg v\n"))
          scenarioRegistry.file scenarioRegistry.masqHost
        = .error (.indexOutOfRange (Fields l).length (Fields l).length) :=
  ⟨by decide,
   load_malformed_installs_nothing (fileWith (bytes "/a git u\n/onlypath\n/b hg v\n"))
    scenarioRegistry (Reader.mk (bytes "/a git u\n/onlypath\n/b hg v\n") none) rfl
    ⟨bytes "/onlypath", by decide, by decide, by decide⟩⟩

/-- Last write wins, over the lines that `ReadLine` hands to the loop (for a
line longer than the buffer these are its pieces): when the file is read to a
clean end and every such line that is not blank has at least three fields,
`loadPackages` installs a mapping with one entry for each path of such a line,
and the record under a path is the one parsed from the last of them with that
path. -/
theorem load_last_write_wins (fs : FileSystem) (pl : PackageList) (f : Reader)
    (hopen : fs pl.file = .ok f) (hclean : f.fault = none)
    (hgood : ∀ l ∈ f.lines, nonBlank l = true → 3 ≤ (Fields l).length) :
    ∃ m : GoMap Package,
      loadPackages fs pl = ({ pl with packages := m }, .ok none) ∧
      m.keys.Nodup ∧
      (∀ k, k ∈ m.keys ↔ ∃ l ∈ f.lines, nonBlank l = true ∧ (Fields l).getD 0 [] = k) ∧
      (∀ k, m.find k = lastWithPath (parsedRecords f.lines) k) := by
  refine ⟨insertAll (parsedRecords f.lines) [], ?_, ?_, ?_, ?_⟩
  · rw [loadPackages_eq fs pl f hopen, addLines_ok f.lines [] hgood, hclean]
  · exact nodup_keys_insertAll _ [] List.nodup_nil
  · intro k
    rw [mem_keys_insertAll, mem_parsedRecords f.lines hgood k]
    simp [GoMap.keys]
  · intro k
    rw [find_insertAll]
    cases lastWithPath (parsedRecords f.lines) k <;> rfl

/-- Example: `/foo` occurs on two lines; the later line wins. -/
theorem load_last_write_wins_example :
    loadPackages (fileWith (bytes "/foo git a\n\n/bar hg b docs\n/foo svn c\n")) emptyRegistry
      = ({ emptyRegistry with
            packages := [(bytes "/foo", ⟨bytes "/foo", bytes "svn", bytes "c", []⟩),
                         (bytes "/bar", ⟨bytes "/bar", bytes "hg", bytes "b", bytes "docs"⟩)] },
         .ok none) ∧
    ∃ m : GoMap Package,
      loadPackages (fileWith (bytes "/foo git a\n\n/bar hg b docs\n/foo svn c\n")) emptyRegistry
        = ({ emptyRegistry with packages := m }, .ok none) ∧
      m.keys.Nodup ∧
      (∀ k, k ∈ m.keys ↔
        ∃ l ∈ (Reader.mk (bytes "/foo git a\n\n/bar hg b docs\n/foo svn c\n") none).lines,
          nonBlank l = true ∧ (Fields l).getD 0 [] = k) ∧
      (∀ k, m.find k = lastWithPath (parsedRecords
        (Reader.mk (bytes "/foo git a\n\n/bar hg b docs\n/foo svn c\n") none).lines) k) :=
  ⟨by decide,
   load_last_write_wins (fileWith (bytes "/foo git a\n\n/bar hg b docs\n/foo svn c\n"))
    emptyRegistry (Reader.mk (bytes "/foo git a\n\n/bar hg b docs\n/foo svn c\n") none) rfl rfl
    (by decide)⟩

/-- Blank lines are skipped, over the lines that `ReadLine` hands to the loop
(for a line longer than the buffer these are its pieces): two files that end
the same way and whose lines, as the loader reads them, differ only in blank
ones give the same outcome of `loadPackages`; a blank one is not handed to
`NewPackage` and adds no entry. -/
theorem load_ignores_blank_lines (fs1 fs2 : FileSystem) (pl : PackageList) (f1 f2 : Reader)
    (hopen1 : fs1 pl.file = .ok f1) (hopen2 : fs2 pl.file = .ok f2)
    (hend : f1.fault = f2.fault)
    (hsame : f1.lines.filter nonBlank = f2.lines.filter nonBlank) :
    loadPackages fs1 pl = loadPackages fs2 pl ∧
    (∀ (l : GoString) (rest : List GoString) (pkgs : GoMap Package),
      nonBlank l = false → addLines (l :: rest) pkgs = addLines rest pkgs) := by
  refine ⟨?_, ?_⟩
  · rw [loadPackages_eq fs1 pl f1 hopen1, loadPackages_eq fs2 pl f2 hopen2, hend,
      ← addLines_filter f1.lines, ← addLines_filter f2.lines, hsame]
  · intro l rest pkgs hl
    have hb : ¬ (TrimSpace l).length > 0 := by simpa [nonBlank] using hl
    simp only [addLines, if_neg hb]

/-- Example: blank lines put before, between and after two records. -/
theorem load_ignores_blank_lines_example :
    loadPackages (fileWith (bytes "\n/foo git a\n \t \r\n\n/bar hg b\n  \n")) emptyRegistry
      = loadPackages (fileWith (bytes "/foo git a\n/bar hg b\n")) emptyRegistry :=
  (load_ignores_blank_lines
    (fileWith (bytes "\n/foo git a\n \t \r\n\n/bar hg b\n  \n"))
    (fileWith (bytes "/foo git a\n/bar hg b\n")) emptyRegistry
    (Reader.mk (bytes "\n/foo git a\n \t \r\n\n/bar hg b\n  \n") none)
    (Reader.mk (bytes "/foo git a\n/bar hg b\n") none) rfl rfl rfl (by decide)).1

/-! ### Files whose lines fit the buffer -/

/-- In a file whose lines all fit the buffer, a non-blank line with fewer
than three fields makes the load fail and leaves the registry as it was. -/
theorem load_malformed_short_lines (fs : FileSystem) (pl : PackageList)
    (ft : Option GoString) (ls : List GoString) (last : GoString)
    (hshort : ∀ l ∈ ls, 10 ∉ l ∧ l.length < defaultBufSize)
    (hlast : 10 ∉ last ∧ last.length < defaultBufSize)
    (hopen : fs pl.file = .ok { pending := joinLines ls last, fault := ft })
    (hbad : ∃ l ∈ ls, nonBlank (dropCR l) = true ∧ (Fields (dropCR l)).length < 3) :
    ∃ n, n < 3 ∧ loadPackages fs pl = (pl, .error (.indexOutOfRange n n)) := by
  have hl := lines_of_short_lines ft last hlast ls hshort
  obtain ⟨l, hmem, hnb, hf⟩ := hbad
  have hbad2 : ∃ x ∈ (Reader.mk (joinLines ls last) ft).lines,
      nonBlank x = true ∧ (Fields x).length < 3 := by
    refine ⟨dropCR l, ?_, hnb, hf⟩
    rw [hl]
    exact List.mem_append_left _ (List.mem_map_of_mem _ hmem)
  obtain ⟨x, _, _, hx, hx2⟩ := addLines_malformed _ [] hbad2
  refine ⟨(Fields x).length, hx, ?_⟩
  rw [loadPackages_eq fs pl _ hopen, hx2]

/-- In a file whose lines all fit the buffer, a blank line put between two
lines, before the first or after the last does not change what
`loadPackages` does. -/
theorem load_blank_line_inserted (fs1 fs2 : FileSystem) (pl : PackageList)
    (ft : Option GoString) (ls1 ls2 : List GoString) (w last : GoString)
    (h1 : ∀ l ∈ ls1, 10 ∉ l ∧ l.length < defaultBufSize)
    (h2 : ∀ l ∈ ls2, 10 ∉ l ∧ l.length < defaultBufSize)
    (hw : 10 ∉ w ∧ w.length < defaultBufSize)
    (hlast : 10 ∉ last ∧ last.length < defaultBufSize)
    (hblank : nonBlank (dropCR w) = false)
    (hopen1 : fs1 pl.file = .ok { pending := joinLines (ls1 ++ w :: ls2) last, fault := ft })
    (hopen2 : fs2 pl.file = .ok { pending := joinLines (ls1 ++ ls2) last, fault := ft }) :
    loadPackages fs1 pl = loadPackages fs2 pl := by
  have ha : ∀ l ∈ ls1 ++ w :: ls2, 10 ∉ l ∧ l.length < defaultBufSize := by
    intro l hl
    rcases List.mem_append.1 hl with hl | hl
    · exact h1 l hl
    · rcases List.mem_cons.1 hl with rfl | hl
      · exact hw
      · exact h2 l hl
  have hb : ∀ l ∈ ls1 ++ ls2, 10 ∉ l ∧ l.length < defaultBufSize := by
    intro l hl
    rcases List.mem_append.1 hl with hl | hl
    · exact h1 l hl
    · exact h2 l hl
  have hla := lines_of_short_lines ft last hlast _ ha
  have hlb := lines_of_short_lines ft last hlast _ hb
  have hsame : (Reader.mk (joinLines (ls1 ++ w :: ls2) last) ft).lines.filter nonBlank
      = (Reader.mk (joinLines (ls1 ++ ls2) last) ft).lines.filter nonBlank := by
    rw [hla, hlb]
    simp only [List.map_append, List.map_cons, List.filter_append, List.filter_cons, hblank]
    simp
  rw [loadPackages_eq fs1 pl _ hopen1, loadPackages_eq fs2 pl _ hopen2,
    ← addLines_filter (Reader.mk (joinLines (ls1 ++ w :: ls2) last) ft).lines,
    ← addLines_filter (Reader.mk (joinLines (ls1 ++ ls2) last) ft).lines, hsame]

/-! ## The request handler: `ServeHTTP` -/

/-- C9: for a path other than `/` that resolves to a record, the handler
executes the package template when the form value `go-get` is `1` or the
record has no `Doc`, and otherwise redirects to the record's `Doc`. -/
theorem ServeHTTP_resolved (pl : PackageList) (r : Request) (pkg : Package)
    (hpath : r.Path ≠ bytes "/") (hres : getPackage pl r.Path = .ok (some pkg)) :
    ServeHTTP pl r =
      .ok (if r.FormValue (bytes "go-get") = bytes "1" ∨ pkg.Doc = [] then
            .packagePage (if pl.masqHost = [] then r.Host else pl.masqHost) pkg
          else .redirect pkg.Doc StatusFound) := by
  simp only [ServeHTTP, if_neg hpath, hres]
  split <;> rfl

/-- Witness of C9: `/foo` has a `Doc`, `/foo/sub` has none. -/
theorem ServeHTTP_resolved_witness :
    ServeHTTP scenarioRegistry (plainRequest (bytes "/foo/x"))
      = .ok (.redirect (bytes "https://docs.example.com/foo") 302) ∧
    ServeHTTP scenarioRegistry (goGetRequest (bytes "/foo/x"))
      = .ok (.packagePage (bytes "example.org") fooRecord) ∧
    ServeHTTP scenarioRegistry (plainRequest (bytes "/foo/sub"))
      = .ok (.packagePage (bytes "example.org") subRecord) :=
  ⟨(ServeHTTP_resolved scenarioRegistry (plainRequest (bytes "/foo/x")) fooRecord
      (by decide) (by decide)).trans (by decide),
   (ServeHTTP_resolved scenarioRegistry (goGetRequest (bytes "/foo/x")) fooRecord
      (by decide) (by decide)).trans (by decide),
   (ServeHTTP_resolved scenarioRegistry (plainRequest (bytes "/foo/sub")) subRecord
      (by decide) (by decide)).trans (by decide)⟩

/-- The three outcomes of the handler for a path that is empty or begins with
a slash: the index for `/`, else the resolved record, else not-found. -/
theorem ServeHTTP_rooted (pl : PackageList) (r : Request)
    (hroot : r.Path = [] ∨ r.Path.head? = some 47) :
    (r.Path = bytes "/" ∧
      ServeHTTP pl r
        = .ok (.indexPage (if pl.masqHost = [] then r.Host else pl.masqHost) pl.packages)) ∨
    (r.Path ≠ bytes "/" ∧ ∃ pkg, getPackage pl r.Path = .ok (some pkg) ∧
      ServeHTTP pl r =
        .ok (if r.FormValue (bytes "go-get") = bytes "1" ∨ pkg.Doc = [] then
              .packagePage (if pl.masqHost = [] then r.Host else pl.masqHost) pkg
            else .redirect pkg.Doc StatusFound)) ∨
    (r.Path ≠ bytes "/" ∧ getPackage pl r.Path = .ok none ∧
      ServeHTTP pl r = .ok .notFound) := by
  by_cases hpath : r.Path = bytes "/"
  · left
    exact ⟨hpath, by simp only [ServeHTTP, if_pos hpath]⟩
  · right
    have hg := getPackage_eq pl r.Path
    cases hf : pl.packages.find r.Path with
    | some pkg =>
      rw [hf] at hg
      exact Or.inl ⟨hpath, pkg, hg, by
        simp only [ServeHTTP, if_neg hpath, hg]
        split <;> rfl⟩
    | none =>
      rw [hf] at hg
      simp only [] at hg
      cases hc : (candidatePrefixes r.Path).findSome? pl.packages.find with
      | some pkg =>
        rw [hc] at hg
        exact Or.inl ⟨hpath, pkg, hg, by
          simp only [ServeHTTP, if_neg hpath, hg]
          split <;> rfl⟩
      | none =>
        rw [hc] at hg
        simp only [if_pos hroot] at hg
        exact Or.inr ⟨hpath, hg, by simp only [ServeHTTP, if_neg hpath, hg]⟩

/-- C10 (the code departs from it): for the path `*`, which is no key, the
handler gives none of index, resolved record and not-found: the panic of
`getPackage` ends the call. -/
theorem ServeHTTP_no_slash_panics :
    ServeHTTP emptyRegistry (plainRequest (bytes "*"))
      = .error (.sliceBoundsOutOfRange (-1)) := by
  decide

/-! ## Failure of a load -/

theorem addLines_firstMalformed :
    ∀ (ls : List GoString) (pkgs : GoMap Package) (i0 i : Nat) (l : GoString),
      firstMalformed ls i0 = some (i, l) →
      addLines ls pkgs
        = .error (.indexOutOfRange (Fields l).length (Fields l).length) := by
  intro ls
  induction ls with
  | nil => intro pkgs i0 i l h; simp [firstMalformed] at h
  | cons a rest ih =>
    intro pkgs i0 i l h
    simp only [firstMalformed] at h
    by_cases hbad : nonBlank a = true ∧ (Fields a).length < 3
    · rw [if_pos hbad] at h
      simp only [Option.some.injEq, Prod.mk.injEq] at h
      obtain ⟨_, rfl⟩ := h
      have hb : (TrimSpace a).length > 0 := by simpa [nonBlank] using hbad.1
      simp only [addLines, if_pos hb, NewPackage_few_fields a hbad.2]
    · rw [if_neg hbad] at h
      by_cases hb : (TrimSpace a).length > 0
      · have hnb : nonBlank a = true := by simpa [nonBlank] using hb
        have h3 : 3 ≤ (Fields a).length := by
          by_contra hc
          exact hbad ⟨hnb, by omega⟩
        simp only [addLines, if_pos hb, NewPackage_three_fields a h3]
        exact ih _ _ _ _ h
      · simp only [addLines, if_neg hb]
        exact ih _ _ _ _ h

/-- When a line that `ReadLine` hands to the loop is the first non-blank one
with fewer than three fields, `loadPackages` panics with
`index out of range [n] with length n`, where `n` is the number of fields of
that line. -/
theorem load_failure_is_index_panic (fs : FileSystem) (pl : PackageList) (f : Reader)
    (i : Nat) (l : GoString) (hopen : fs pl.file = .ok f)
    (hbad : firstMalformed f.lines 0 = some (i, l)) :
    loadPackages fs pl
      = (pl, .error (.indexOutOfRange (Fields l).length (Fields l).length)) := by
  rw [loadPackages_eq fs pl f hopen, addLines_firstMalformed f.lines [] 0 i l hbad]

/-- Example: the second line `/other` is the offending one. -/
theorem load_failure_is_index_panic_example :
    loadPackages (fileWith (bytes "/a git u\n/other\n")) emptyRegistry
      = (emptyRegistry, .error (.indexOutOfRange 1 1)) :=
  (load_failure_is_index_panic (fileWith (bytes "/a git u\n/other\n")) emptyRegistry
    (Reader.mk (bytes "/a git u\n/other\n") none) 1 (bytes "/other") rfl (by decide)).trans
    (by decide)

/-- C11 (the code departs from it): two files whose offending lines differ in
content (`/onlypath`, `/other`) and in position (first line, second line).
For both `loadPackages` ends in the panic of `NewPackage`, index out of range
[1] with length 1: one and the same value, which holds neither the content of
the offending line nor its position. -/
theorem load_failure_without_line_context :
    firstMalformed (Reader.mk (bytes "/onlypath\n") none).lines 0
      = some (0, bytes "/onlypath") ∧
    firstMalformed (Reader.mk (bytes "/a git u\n/other\n") none).lines 0
      = some (1, bytes "/other") ∧
    (loadPackages (fileWith (bytes "/onlypath\n")) emptyRegistry).2
      = .error (.indexOutOfRange 1 1) ∧
    (loadPackages (fileWith (bytes "/a git u\n/other\n")) emptyRegistry).2
      = .error (.indexOutOfRange 1 1) := by
  refine ⟨by decide, by decide, by decide, by decide⟩

/-! ## Lines longer than the buffer -/

theorem decodeRune_ascii (b : Nat) (t : GoString) (h : b < 128) :
    decodeRune (b :: t) = (b, 1) := by
  simp [decodeRune, RuneSelf, h]

theorem runes_cons_ascii (b : Nat) (t : GoString) (h : b < 128) :
    runes (b :: t) = (b, [b]) :: runes t := by
  simp [runes, runesFrom, decodeRune_ascii b t h]

theorem runes_append_ascii (pre s : GoString) (h : ∀ b ∈ pre, b < 128) :
    runes (pre ++ s) = pre.map (fun b => (b, [b])) ++ runes s := by
  induction pre with
  | nil => rfl
  | cons b t ih =>
    rw [List.cons_append, runes_cons_ascii b _ (h b (List.mem_cons_self _ _)),
      ih (fun x hx => h x (List.mem_cons_of_mem _ hx))]
    rfl

theorem fieldsLoop_ascii_word (rest : List (Nat × GoString)) :
    ∀ (w f : GoString), (∀ b ∈ w, isSpace b = false) →
      fieldsLoop (w.map (fun b => (b, [b])) ++ rest) (some f)
        = fieldsLoop rest (some (f ++ w)) := by
  intro w
  induction w with
  | nil => intro f _; simp
  | cons x w ih =>
    intro f h
    simp only [List.map_cons, List.cons_append, fieldsLoop, h x (List.mem_cons_self _ _),
      Bool.false_eq_true, if_false, List.append_eq]
    rw [ih _ (fun b hb => h b (List.mem_cons_of_mem _ hb))]
    simp

theorem decodeLastRune_ascii (init : GoString) (c : Nat) (h : c < 128) :
    decodeLastRune (init ++ [c]) = (c, 1) := by
  simp [decodeLastRune, RuneSelf, h, List.getD_eq_getElem?_getD]

/-- `TrimSpace` leaves a string as it is when its first and its last byte are
ASCII and no white space. -/
theorem TrimSpace_ascii_ends (b c : Nat) (mid : GoString) (hb : b < 128) (hc : c < 128)
    (hbs : isSpace b = false) (hcs : isSpace c = false) :
    TrimSpace (b :: (mid ++ [c])) = b :: (mid ++ [c]) := by
  have hl : TrimLeftSpace (b :: (mid ++ [c])) = b :: (mid ++ [c]) := by
    have hr := runes_cons_ascii b (mid ++ [c]) hb
    unfold TrimLeftSpace
    rw [hr]
    simp only [indexFunc, hbs, if_true]
    simp
  have hlen : (b :: (mid ++ [c])).length = mid.length + 1 + 1 := by simp
  have hlast : b :: (mid ++ [c]) = (b :: mid) ++ [c] := by simp
  have hidx : lastIndexFunc (b :: (mid ++ [c])) false (mid.length + 1 + 1) 0
      = ((mid.length + 1 : Nat) : Int) := by
    have ht : (b :: (mid ++ [c])).take (mid.length + 1 + 1) = (b :: mid) ++ [c] := by
      rw [← hlen, List.take_length, hlast]
    simp only [lastIndexFunc, ht, decodeLastRune_ascii (b :: mid) c hc, hcs, if_true]
    simp
  have hget : (b :: (mid ++ [c])).getD (mid.length + 1) 0 = c := by
    rw [hlast, List.getD_eq_getElem _ _ (by simp)]
    rw [List.getElem_append_right (by simp)]
    simp
  rw [TrimSpace, hl]
  simp only [TrimRightSpace, hlen, hidx]
  have hno : ¬ ((0 : Int) ≤ ((mid.length + 1 : Nat) : Int) ∧
      RuneSelf ≤ (b :: (mid ++ [c])).getD (((mid.length + 1 : Nat) : Int)).toNat 0) := by
    simp only [Int.toNat_ofNat, hget, RuneSelf]
    omega
  rw [if_neg hno]
  have : (((mid.length + 1 : Nat) : Int) + 1).toNat = (b :: (mid ++ [c])).length := by
    rw [hlen]
    omega
  rw [this, List.take_length]

theorem longLine_chunk_fields (xs : GoString) (hne : xs ≠ [])
    (hx : ∀ b ∈ xs, b = 120) :
    Fields (bytes "/a git " ++ xs) = [bytes "/a", bytes "git", xs] := by
  have hpre : bytes "/a git " = [47, 97, 32, 103, 105, 116, 32] := by decide
  have hascii : ∀ b ∈ bytes "/a git " ++ xs, b < 128 := by
    intro b hb
    rcases List.mem_append.1 hb with hb | hb
    · rw [hpre] at hb
      simp at hb
      omega
    · rw [hx b hb]
      decide
  have hr : runes (bytes "/a git " ++ xs)
      = (bytes "/a git ").map (fun b => (b, [b])) ++ (xs.map (fun b => (b, [b])) ++ []) := by
    have := runes_append_ascii (bytes "/a git " ++ xs) [] hascii
    rw [List.append_nil] at this
    rw [this, List.map_append, List.append_nil]
    simp [runes, runesFrom]
  have h47 : isSpace 47 = false := by decide
  have h97 : isSpace 97 = false := by decide
  have h32 : isSpace 32 = true := by decide
  have h103 : isSpace 103 = false := by decide
  have h105 : isSpace 105 = false := by decide
  have h116 : isSpace 116 = false := by decide
  have h120 : isSpace 120 = false := by decide
  have hb1 : bytes "/a" = [47, 97] := by decide
  have hb2 : bytes "git" = [103, 105, 116] := by decide
  have hxs : ∀ b ∈ xs, isSpace b = false := by
    intro b hb
    rw [hx b hb]
    exact h120
  obtain ⟨x0, xs2, rfl⟩ := List.exists_cons_of_ne_nil hne
  rw [Fields, hr, hpre, hb1, hb2]
  simp only [List.map_cons, List.map_nil, List.cons_append, List.nil_append, fieldsLoop,
    h47, h97, h32, h103, h105, h116, hxs x0 (List.mem_cons_self _ _), if_true, if_false,
    Bool.false_eq_true, List.append_eq]
  rw [fieldsLoop_ascii_word [] xs2 [x0] (fun b hb => hxs b (List.mem_cons_of_mem _ hb))]
  rfl

/-- What `loadPackages` does with a file of one line `/a git x…x/b hg v` in
which the run of `x` makes the first 4096 bytes end before `/b`. -/
theorem load_long_line (xs : GoString) (hx : ∀ b ∈ xs, b = 120) (hlen : xs.length = 4089) :
    10 ∉ bytes "/a git " ++ xs ++ bytes "/b hg v" ∧
    (bytes "/a git " ++ xs ++ bytes "/b hg v").length = 4103 ∧
    loadPackages (fileWith (joinLines [bytes "/a git " ++ xs ++ bytes "/b hg v"] []))
        emptyRegistry
      = ({ emptyRegistry with
            packages := [(bytes "/a", ⟨bytes "/a", bytes "git", xs, []⟩),
                         (bytes "/b", ⟨bytes "/b", bytes "hg", bytes "v", []⟩)] },
         .ok none) := by
  have hpre : bytes "/a git " = [47, 97, 32, 103, 105, 116, 32] := by decide
  have hpost : bytes "/b hg v" = [47, 98, 32, 104, 103, 32, 118] := by decide
  have hxs10 : 10 ∉ xs := fun h => by
    have := hx 10 h
    omega
  have hne : xs ≠ [] := by
    intro h
    rw [h] at hlen
    simp at hlen
  have hmem : 10 ∉ bytes "/a git " ++ xs ++ bytes "/b hg v" := by
    simp only [hpre, hpost, List.mem_append, not_or]
    exact ⟨⟨by decide, hxs10⟩, by decide⟩
  have hlen2 : (bytes "/a git " ++ xs ++ bytes "/b hg v").length = 4103 := by
    simp only [hpre, hpost, List.length_append, hlen]
    rfl
  refine ⟨hmem, hlen2, ?_⟩
  have hdata : joinLines [bytes "/a git " ++ xs ++ bytes "/b hg v"] []
      = (bytes "/a git " ++ xs) ++ bytes "/b hg v\n" := by
    have : bytes "/b hg v\n" = bytes "/b hg v" ++ [10] := by decide
    simp [joinLines, this]
  have hclen : (bytes "/a git " ++ xs).length = defaultBufSize := by
    simp only [hpre, List.length_append, hlen]
    rfl
  have hc10 : 10 ∉ bytes "/a git " ++ xs := by
    simp only [hpre, List.mem_append, not_or]
    exact ⟨by decide, hxs10⟩
  obtain ⟨init, c, hinit⟩ : ∃ init c, xs = init ++ [c] := by
    rcases List.eq_nil_or_concat xs with h | ⟨init, c, h⟩
    · exact absurd h hne
    · exact ⟨init, c, by simpa using h⟩
  have hc : c = 120 := hx c (by rw [hinit]; simp)
  have hshape : bytes "/a git " ++ xs
      = 47 :: (([97, 32, 103, 105, 116, 32] ++ init) ++ [c]) := by
    rw [hpre, hinit]
    simp
  have hccr : (bytes "/a git " ++ xs).getLast? ≠ some 13 := by
    rw [hshape]
    have : (47 :: (([97, 32, 103, 105, 116, 32] ++ init) ++ [c]))
        = (47 :: ([97, 32, 103, 105, 116, 32] ++ init)) ++ [c] := by simp
    rw [this, List.getLast?_concat, hc]
    decide
  have hlines : (Reader.mk (joinLines [bytes "/a git " ++ xs ++ bytes "/b hg v"] []) none).lines
      = [bytes "/a git " ++ xs, bytes "/b hg v"] := by
    rw [lines_cons _ (by rw [hdata, hpre]; simp), hdata,
      ReadLine_full_buffer _ _ none hclen hc10 hccr]
    have : (Reader.mk (bytes "/b hg v\n") none).lines = [bytes "/b hg v"] := by decide
    rw [this]
  have htrim : (TrimSpace (bytes "/a git " ++ xs)).length > 0 := by
    rw [hshape, TrimSpace_ascii_ends 47 c _ (by decide) (by rw [hc]; decide) (by decide)
      (by rw [hc]; decide)]
    simp
  have hb : (TrimSpace (bytes "/b hg v")).length > 0 := by decide
  have hfields := longLine_chunk_fields xs hne hx
  have hnew : NewPackage (bytes "/a git " ++ xs)
      = .ok ⟨bytes "/a", bytes "git", xs, []⟩ := by
    rw [NewPackage_three_fields _ (by rw [hfields]; simp), hfields]
    rfl
  have hnew2 : NewPackage (bytes "/b hg v") = .ok ⟨bytes "/b", bytes "hg", bytes "v", []⟩ := by
    decide
  have hneq : ¬ (bytes "/a" = bytes "/b") := by decide
  rw [loadPackages_eq (fileWith (joinLines [bytes "/a git " ++ xs ++ bytes "/b hg v"] []))
    emptyRegistry (Reader.mk (joinLines [bytes "/a git " ++ xs ++ bytes "/b hg v"] []) none) rfl,
    hlines]
  simp only [addLines, if_pos htrim, hnew, if_pos hb, hnew2, GoMap.insert, if_neg hneq]

/-- C13 (the code departs from it): a file of one line of 4103 bytes. `ReadLine`
hands the first 4096 bytes and the rest to the loop as two lines, and
`loadPackages` parses a record from each: two entries come from one line. -/
theorem load_splits_long_line :
    10 ∉ longLine ∧ longLine.length = 4103 ∧
    loadPackages (fileWith (joinLines [longLine] [])) emptyRegistry
      = ({ emptyRegistry with
            packages := [(bytes "/a", ⟨bytes "/a", bytes "git", List.replicate 4089 120, []⟩),
                         (bytes "/b", ⟨bytes "/b", bytes "hg", bytes "v", []⟩)] },
         .ok none) :=
  load_long_line (List.replicate 4089 120) (fun _ hb => List.eq_of_mem_replicate hb)
    (List.length_replicate _ _)

/-! ## Runes of a string -/

theorem decodeRune_cons (s0 : Nat) (t : GoString) :
    decodeRune (s0 :: t) =
      if s0 < RuneSelf then (s0, 1)
      else if s0 < 0xC2 ∨ 0xF4 < s0 then (RuneError, 1)
      else decodeTail s0 (seqSize s0) (seqLo s0) (seqHi s0) t := rfl

theorem seqSize_bounds (s0 : Nat) : 2 ≤ seqSize s0 ∧ seqSize s0 ≤ 4 := by
  simp only [seqSize]
  split_ifs <;> omega

theorem seqLo_ge (s0 : Nat) : 0x80 ≤ seqLo s0 := by
  simp only [seqLo]
  split_ifs <;> omega

theorem seqHi_le (s0 : Nat) : seqHi s0 ≤ 0xBF := by
  simp only [seqHi]
  split_ifs <;> omega

theorem decodeTail_valid (s0 sz lo hi : Nat) (t : GoString) (h2 : 2 ≤ sz) (h4 : sz ≤ 4)
    (hv : tailValid sz lo hi t) : decodeTail s0 sz lo hi t = (tailValue s0 sz t, sz) := by
  obtain ⟨hl, h0, h1, h3⟩ := hv
  have hsz : sz = 2 ∨ sz = 3 ∨ sz = 4 := by omega
  rcases hsz with rfl | rfl | rfl
  · rcases t with _ | ⟨a1, t⟩
    · simp at hl
    · simp only [List.getD_cons_zero] at h0
      have h0' : ¬ (a1 < lo ∨ hi < a1) := by omega
      simp [decodeTail, tailValue, h0']
  · rcases t with _ | ⟨a1, _ | ⟨a2, t⟩⟩
    · simp at hl
    · simp at hl
    · simp only [List.getD_cons_zero, List.getD_cons_succ] at h0 h1
      have h0' : ¬ (a1 < lo ∨ hi < a1) := by omega
      have h1' : ¬ (a2 < 128 ∨ 191 < a2) := by omega
      simp [decodeTail, tailValue, h0', h1']
  · rcases t with _ | ⟨a1, _ | ⟨a2, _ | ⟨a3, t⟩⟩⟩
    · simp at hl
    · simp at hl
    · simp at hl
    · simp only [List.getD_cons_zero, List.getD_cons_succ] at h0 h1 h3
      have h0' : ¬ (a1 < lo ∨ hi < a1) := by omega
      have h1' : ¬ (a2 < 128 ∨ 191 < a2) := by omega
      have h3' : ¬ (a3 < 128 ∨ 191 < a3) := by omega
      simp [decodeTail, tailValue, h0', h1', h3']

theorem decodeTail_invalid (s0 sz lo hi : Nat) (t : GoString) (h2 : 2 ≤ sz) (h4 : sz ≤ 4)
    (hv : ¬ tailValid sz lo hi t) : decodeTail s0 sz lo hi t = (RuneError, 1) := by
  have hsz : sz = 2 ∨ sz = 3 ∨ sz = 4 := by omega
  simp only [tailValid] at hv
  rcases hsz with rfl | rfl | rfl
  · rcases t with _ | ⟨a1, t⟩
    · simp [decodeTail]
    · simp only [List.getD_cons_zero, List.length_cons] at hv
      have h0' : a1 < lo ∨ hi < a1 := by omega
      simp [decodeTail, h0']
  · rcases t with _ | ⟨a1, _ | ⟨a2, t⟩⟩
    · simp [decodeTail]
    · simp [decodeTail]
    · simp only [List.getD_cons_zero, List.getD_cons_succ, List.length_cons] at hv
      by_cases h0' : a1 < lo ∨ hi < a1
      · simp [decodeTail, h0']
      · have h1' : a2 < 128 ∨ 191 < a2 := by omega
        simp [decodeTail, h0', h1']
  · rcases t with _ | ⟨a1, _ | ⟨a2, _ | ⟨a3, t⟩⟩⟩
    · simp [decodeTail]
    · simp [decodeTail]
    · simp [decodeTail]
    · simp only [List.getD_cons_zero, List.getD_cons_succ, List.length_cons] at hv
      by_cases h0' : a1 < lo ∨ hi < a1
      · simp [decodeTail, h0']
      · by_cases h1' : a2 < 128 ∨ 191 < a2
        · simp [decodeTail, h0', h1']
        · have h3' : a3 < 128 ∨ 191 < a3 := by omega
          simp [decodeTail, h0', h1', h3']


theorem tailValid_append (s0 sz lo hi : Nat) (a b : GoString) (h2 : 2 ≤ sz) (h4 : sz ≤ 4)
    (hl : sz ≤ a.length + 1) :
    (tailValid sz lo hi (a ++ b) ↔ tailValid sz lo hi a) ∧
      tailValue s0 sz (a ++ b) = tailValue s0 sz a := by
  have g0 : (a ++ b).getD 0 0 = a.getD 0 0 := List.getD_append _ _ _ _ (by omega)
  have g1 : 3 ≤ sz → (a ++ b).getD 1 0 = a.getD 1 0 :=
    fun h => List.getD_append _ _ _ _ (by omega)
  have g2 : 4 ≤ sz → (a ++ b).getD 2 0 = a.getD 2 0 :=
    fun h => List.getD_append _ _ _ _ (by omega)
  refine ⟨?_, ?_⟩
  · simp only [tailValid, g0, List.length_append]
    constructor
    · rintro ⟨_, h0, h1, h3⟩
      refine ⟨hl, h0, fun h => ?_, fun h => ?_⟩
      · rw [← g1 h]; exact h1 h
      · rw [← g2 h]; exact h3 h
    · rintro ⟨_, h0, h1, h3⟩
      refine ⟨by omega, h0, fun h => ?_, fun h => ?_⟩
      · rw [g1 h]; exact h1 h
      · rw [g2 h]; exact h3 h
  · simp only [tailValue, g0]
    split_ifs with c2 c3
    · rfl
    · rw [g1 (by omega)]
    · rw [g1 (by omega), g2 (by omega)]

/-- Decoding does not look beyond the bytes of the rune it finds. -/
theorem decodeTail_append_of_width (s0 sz lo hi : Nat) (a b : GoString)
    (h2 : 2 ≤ sz) (h4 : sz ≤ 4)
    (hw : (decodeTail s0 sz lo hi (a ++ b)).2 ≤ a.length + 1) :
    decodeTail s0 sz lo hi a = decodeTail s0 sz lo hi (a ++ b) := by
  by_cases hv : tailValid sz lo hi (a ++ b)
  · rw [decodeTail_valid s0 sz lo hi _ h2 h4 hv] at hw ⊢
    have hl : sz ≤ a.length + 1 := hw
    obtain ⟨h1, h3⟩ := tailValid_append s0 sz lo hi a b h2 h4 hl
    rw [decodeTail_valid s0 sz lo hi a h2 h4 (h1.1 hv), h3]
  · rw [decodeTail_invalid s0 sz lo hi _ h2 h4 hv]
    apply decodeTail_invalid s0 sz lo hi a h2 h4
    intro hva
    exact hv ((tailValid_append s0 sz lo hi a b h2 h4 hva.1).1.2 hva)

/-- Bytes that cannot continue an encoding do not change what is decoded
before them. -/
theorem decodeTail_append_of_start (s0 sz lo hi : Nat) (a b : GoString)
    (h2 : 2 ≤ sz) (h4 : sz ≤ 4) (hlo : 0x80 ≤ lo) (hhi : hi ≤ 0xBF)
    (hb : b = [] ∨ ∃ b0 u, b = b0 :: u ∧ (b0 < 0x80 ∨ 0xBF < b0)) :
    decodeTail s0 sz lo hi (a ++ b) = decodeTail s0 sz lo hi a := by
  by_cases hl : sz ≤ a.length + 1
  · obtain ⟨h1, h3⟩ := tailValid_append s0 sz lo hi a b h2 h4 hl
    by_cases hv : tailValid sz lo hi a
    · rw [decodeTail_valid s0 sz lo hi _ h2 h4 (h1.2 hv),
        decodeTail_valid s0 sz lo hi _ h2 h4 hv, h3]
    · rw [decodeTail_invalid s0 sz lo hi _ h2 h4 (fun h => hv (h1.1 h)),
        decodeTail_invalid s0 sz lo hi _ h2 h4 hv]
  · rw [decodeTail_invalid s0 sz lo hi a h2 h4 (fun h => hl h.1)]
    rcases hb with rfl | ⟨b0, u, rfl, hb0⟩
    · rw [List.append_nil]
      exact decodeTail_invalid s0 sz lo hi a h2 h4 (fun h => hl h.1)
    · apply decodeTail_invalid s0 sz lo hi _ h2 h4
      rintro ⟨_, h0, h1, h3⟩
      rcases a with _ | ⟨a1, _ | ⟨a2, _ | ⟨a3, t⟩⟩⟩
      · simp only [List.nil_append, List.getD_cons_zero] at h0
        omega
      · have := h1 (by simp at hl; omega)
        simp only [List.cons_append, List.nil_append, List.getD_cons_succ,
          List.getD_cons_zero] at this
        omega
      · have := h3 (by simp at hl; omega)
        simp only [List.cons_append, List.nil_append, List.getD_cons_succ,
          List.getD_cons_zero] at this
        omega
      · simp at hl
        omega

theorem decodeRune_width (b : Nat) (t : GoString) :
    1 ≤ (decodeRune (b :: t)).2 ∧ (decodeRune (b :: t)).2 ≤ (b :: t).length := by
  rw [decodeRune_cons]
  obtain ⟨h2, h4⟩ := seqSize_bounds b
  split_ifs
  · simp
  · simp
  · by_cases hv : tailValid (seqSize b) (seqLo b) (seqHi b) t
    · rw [decodeTail_valid b _ _ _ t h2 h4 hv]
      have := hv.1
      simp only [List.length_cons]
      omega
    · rw [decodeTail_invalid b _ _ _ t h2 h4 hv]
      simp

/-- Decoding the first rune does not look beyond the bytes of that rune. -/
theorem decodeRune_append_of_width (a b : GoString) (ha : a ≠ [])
    (hw : (decodeRune (a ++ b)).2 ≤ a.length) : decodeRune a = decodeRune (a ++ b) := by
  obtain ⟨a0, t, rfl⟩ := List.exists_cons_of_ne_nil ha
  rw [List.cons_append, decodeRune_cons] at hw ⊢
  rw [decodeRune_cons]
  obtain ⟨h2, h4⟩ := seqSize_bounds a0
  split_ifs at hw ⊢
  · rfl
  · rfl
  · exact decodeTail_append_of_width a0 _ _ _ t b h2 h4 (by simpa using hw)

/-- What follows a string does not change its first rune when it cannot
continue an encoding. -/
theorem decodeRune_append_of_start (a b : GoString) (ha : a ≠ [])
    (hb : b = [] ∨ ∃ b0 u, b = b0 :: u ∧ (b0 < 0x80 ∨ 0xBF < b0)) :
    decodeRune (a ++ b) = decodeRune a := by
  obtain ⟨a0, t, rfl⟩ := List.exists_cons_of_ne_nil ha
  rw [List.cons_append, decodeRune_cons, decodeRune_cons]
  obtain ⟨h2, h4⟩ := seqSize_bounds a0
  split_ifs
  · rfl
  · rfl
  · exact decodeTail_append_of_start a0 _ _ _ t b h2 h4 (seqLo_ge a0) (seqHi_le a0) hb

/-- A space rune comes from a complete encoding, which what follows does not change. -/
theorem decodeRune_append_of_space (a b : GoString)
    (hs : isSpace (decodeRune a).1 = true) : decodeRune (a ++ b) = decodeRune a := by
  rcases a with _ | ⟨a0, t⟩
  · simp [decodeRune, RuneError, isSpace] at hs
  · rw [List.cons_append, decodeRune_cons, decodeRune_cons]
    rw [decodeRune_cons] at hs
    obtain ⟨h2, h4⟩ := seqSize_bounds a0
    split_ifs at hs ⊢ with c1 c2
    · rfl
    · rfl
    · by_cases hv : tailValid (seqSize a0) (seqLo a0) (seqHi a0) t
      · obtain ⟨h1, h3⟩ := tailValid_append a0 _ (seqLo a0) (seqHi a0) t b h2 h4 hv.1
        rw [decodeTail_valid a0 _ _ _ _ h2 h4 (h1.2 hv),
          decodeTail_valid a0 _ _ _ _ h2 h4 hv, h3]
      · rw [decodeTail_invalid a0 _ _ _ _ h2 h4 hv] at hs
        simp [RuneError, isSpace] at hs

/-- The first byte of a space rune cannot continue an encoding. -/
theorem space_first_byte (b0 : Nat) (t : GoString)
    (hs : isSpace (decodeRune (b0 :: t)).1 = true) : b0 < 0x80 ∨ 0xBF < b0 := by
  rw [decodeRune_cons] at hs
  split_ifs at hs with c1 c2
  · left
    simpa [RuneSelf] using c1
  · simp [RuneError, isSpace] at hs
  · right
    omega

theorem runesFrom_skip : ∀ (t : GoString) (k : Nat), runesFrom t k = runesFrom (t.drop k) 0 := by
  intro t
  induction t with
  | nil => intro k; simp [runesFrom]
  | cons b t ih =>
    intro k
    cases k with
    | zero => rfl
    | succ k => simp only [runesFrom, List.drop_succ_cons, ih k]

/-- The runes of a non-empty string: the first rune with its bytes, then the
runes of what follows it. -/
theorem runes_cons (b : Nat) (t : GoString) :
    runes (b :: t) =
      ((decodeRune (b :: t)).1, (b :: t).take (decodeRune (b :: t)).2)
        :: runes ((b :: t).drop (decodeRune (b :: t)).2) := by
  obtain ⟨h1, _⟩ := decodeRune_width b t
  obtain ⟨k, hk⟩ : ∃ k, (decodeRune (b :: t)).2 = k + 1 :=
    ⟨(decodeRune (b :: t)).2 - 1, by omega⟩
  simp only [runes, runesFrom]
  rw [runesFrom_skip, hk]
  simp

theorem runes_nil : runes [] = [] := rfl

/-- The runes of a string that begins with the bytes `w` of one rune. -/
theorem runes_append_token (w x : GoString) (r : Nat) (hw : w ≠ [])
    (hd : decodeRune (w ++ x) = (r, w.length)) : runes (w ++ x) = (r, w) :: runes x := by
  obtain ⟨b, t, hbt⟩ := List.exists_cons_of_ne_nil
    (fun h => hw (List.append_eq_nil.1 h).1 : w ++ x ≠ [])
  rw [hbt, runes_cons, ← hbt, hd]
  simp

/-- The bytes of the runes of a string make up the string. -/
theorem runes_join : ∀ (n : Nat) (s : GoString), s.length ≤ n →
    (runes s).flatMap Prod.snd = s := by
  intro n
  induction n with
  | zero =>
    intro s h
    have : s = [] := List.length_eq_zero.1 (by omega)
    subst this
    rfl
  | succ n ih =>
    intro s h
    rcases s with _ | ⟨b, t⟩
    · rfl
    · obtain ⟨h1, h2⟩ := decodeRune_width b t
      rw [runes_cons, List.flatMap_cons, ih _ (by
        simp only [List.length_drop, List.length_cons] at h ⊢
        omega)]
      exact List.take_append_drop _ _

/-- Every rune of a string spans at least one byte. -/
theorem runes_token_ne_nil : ∀ (n : Nat) (s : GoString), s.length ≤ n →
    ∀ tk ∈ runes s, tk.2 ≠ [] := by
  intro n
  induction n with
  | zero =>
    intro s h tk htk
    have : s = [] := List.length_eq_zero.1 (by omega)
    subst this
    simp [runes, runesFrom] at htk
  | succ n ih =>
    intro s h tk htk
    rcases s with _ | ⟨b, t⟩
    · simp [runes, runesFrom] at htk
    · obtain ⟨h1, h2⟩ := decodeRune_width b t
      rw [runes_cons] at htk
      rcases List.mem_cons.1 htk with rfl | htk
      · intro hnil
        have : ((b :: t).take (decodeRune (b :: t)).2).length = 0 := by
          rw [show ((decodeRune (b :: t)).1, List.take (decodeRune (b :: t)).2 (b :: t)).2
            = List.take (decodeRune (b :: t)).2 (b :: t) from rfl] at hnil
          rw [hnil]
          rfl
        simp only [List.length_take, List.length_cons] at this h2
        omega
      · exact ih _ (by
          simp only [List.length_drop, List.length_cons] at h ⊢
          omega) tk htk

/-- A string whose runes begin with the runes `ts`: the bytes of `ts` are a
string with exactly these runes, and the rest of the runes are those of the
rest of the string. -/
theorem runes_split : ∀ (ts : List (Nat × GoString)) (s : GoString)
    (rest : List (Nat × GoString)), runes s = ts ++ rest →
    runes (ts.flatMap Prod.snd) = ts ∧
      ∃ x, s = ts.flatMap Prod.snd ++ x ∧ runes x = rest := by
  intro ts
  induction ts with
  | nil =>
    intro s rest h
    exact ⟨rfl, s, rfl, h⟩
  | cons tk ts ih =>
    intro s rest h
    rcases s with _ | ⟨b, t⟩
    · simp [runes, runesFrom] at h
    · obtain ⟨h1, h2⟩ := decodeRune_width b t
      rw [runes_cons, List.cons_append] at h
      obtain ⟨htk, hrest⟩ := List.cons.inj h
      obtain ⟨ih1, x, hx1, hx2⟩ := ih _ rest hrest
      have hw : tk.2 = (b :: t).take (decodeRune (b :: t)).2 := by rw [← htk]
      have hr : tk.1 = (decodeRune (b :: t)).1 := by rw [← htk]
      have hwlen : tk.2.length = (decodeRune (b :: t)).2 := by
        rw [hw, List.length_take]
        omega
      have hwne : tk.2 ≠ [] := by
        intro hnil
        rw [hnil] at hwlen
        simp at hwlen
        omega
      have hs : b :: t = (tk.2 ++ ts.flatMap Prod.snd) ++ x := by
        rw [List.append_assoc, ← hx1, hw]
        exact (List.take_append_drop _ _).symm
      have hd : decodeRune (tk.2 ++ ts.flatMap Prod.snd) = (tk.1, tk.2.length) := by
        rw [decodeRune_append_of_width (tk.2 ++ ts.flatMap Prod.snd) x (by simp [hwne])
          (by rw [← hs, ← hwlen]; simp), ← hs, hr, hwlen]
      refine ⟨?_, x, ?_, hx2⟩
      · rw [List.flatMap_cons, runes_append_token _ _ tk.1 hwne hd, ih1]
      · rw [List.flatMap_cons]
        exact hs

/-- A run of runes inside the runes of a string: its bytes are a string with
exactly these runes. -/
theorem runes_infix (s : GoString) (pre run post : List (Nat × GoString))
    (h : runes s = pre ++ run ++ post) : runes (run.flatMap Prod.snd) = run := by
  rw [List.append_assoc] at h
  obtain ⟨_, x, _, hx⟩ := runes_split pre s (run ++ post) h
  exact (runes_split run x post hx).1

/-! ## The fields of a line -/

/-- Every field that the loop of `strings.Fields` gives is made of the bytes
of a run of runes that are no white space: the field under way continued by
a run at the start of the runes, or a non-empty run further on. -/
theorem fieldsLoop_mem : ∀ (toks : List (Nat × GoString)) (cur : Option GoString)
    (f : GoString), f ∈ fieldsLoop toks cur →
    (∃ c run post, cur = some c ∧ toks = run ++ post ∧ f = c ++ run.flatMap Prod.snd ∧
        ∀ tk ∈ run, isSpace tk.1 = false) ∨
    (∃ pre run post, toks = pre ++ run ++ post ∧ run ≠ [] ∧ f = run.flatMap Prod.snd ∧
        ∀ tk ∈ run, isSpace tk.1 = false) := by
  intro toks
  induction toks with
  | nil =>
    intro cur f hf
    cases cur with
    | none => simp [fieldsLoop] at hf
    | some c =>
      simp only [fieldsLoop, List.mem_singleton] at hf
      exact Or.inl ⟨c, [], [], rfl, rfl, by simp [hf], by simp⟩
  | cons tk rest ih =>
    intro cur f hf
    obtain ⟨r, w⟩ := tk
    have shift : (∃ pre run post, rest = pre ++ run ++ post ∧ run ≠ [] ∧
        f = run.flatMap Prod.snd ∧ ∀ tk ∈ run, isSpace tk.1 = false) →
        (∃ pre run post, (r, w) :: rest = pre ++ run ++ post ∧ run ≠ [] ∧
        f = run.flatMap Prod.snd ∧ ∀ tk ∈ run, isSpace tk.1 = false) := by
      rintro ⟨pre, run, post, h1, h2, h3, h4⟩
      exact ⟨(r, w) :: pre, run, post, by rw [h1]; simp, h2, h3, h4⟩
    cases cur with
    | none =>
      simp only [fieldsLoop] at hf
      by_cases hs : isSpace r = true
      · rw [if_pos hs] at hf
        rcases ih none f hf with ⟨c, _, _, hc, _⟩ | h
        · cases hc
        · exact Or.inr (shift h)
      · rw [if_neg hs] at hf
        have hs2 : isSpace r = false := by simpa using hs
        rcases ih (some w) f hf with ⟨c, run, post, hc, h1, h2, h3⟩ | h
        · simp only [Option.some.injEq] at hc
          subst hc
          refine Or.inr ⟨[], (r, w) :: run, post, by rw [h1]; simp, by simp, ?_, ?_⟩
          · rw [h2, List.flatMap_cons]
          · intro tk htk
            rcases List.mem_cons.1 htk with rfl | htk
            · exact hs2
            · exact h3 tk htk
        · exact Or.inr (shift h)
    | some c =>
      simp only [fieldsLoop] at hf
      by_cases hs : isSpace r = true
      · rw [if_pos hs] at hf
        rcases List.mem_cons.1 hf with rfl | hf
        · exact Or.inl ⟨f, [], (r, w) :: rest, rfl, rfl, by simp, by simp⟩
        · rcases ih none f hf with ⟨c2, _, _, hc, _⟩ | h
          · cases hc
          · exact Or.inr (shift h)
      · rw [if_neg hs] at hf
        have hs2 : isSpace r = false := by simpa using hs
        rcases ih (some (c ++ w)) f hf with ⟨c2, run, post, hc, h1, h2, h3⟩ | h
        · simp only [Option.some.injEq] at hc
          subst hc
          refine Or.inl ⟨c, (r, w) :: run, post, rfl, by rw [h1]; simp, ?_, ?_⟩
          · rw [h2, List.flatMap_cons]
            simp
          · intro tk htk
            rcases List.mem_cons.1 htk with rfl | htk
            · exact hs2
            · exact h3 tk htk
        · exact Or.inr (shift h)

/-- A field of a line is not empty and holds no white space rune. -/
theorem Fields_mem (s f : GoString) (hf : f ∈ Fields s) :
    f ≠ [] ∧ ∀ tk ∈ runes f, isSpace tk.1 = false := by
  rcases fieldsLoop_mem (runes s) none f hf with ⟨c, _, _, hc, _⟩ | ⟨pre, run, post, h1, h2, h3, h4⟩
  · cases hc
  · have hr : runes f = run := by
      rw [h3]
      exact runes_infix s pre run post h1
    refine ⟨?_, ?_⟩
    · intro hnil
      obtain ⟨tk, rest, hrun⟩ := List.exists_cons_of_ne_nil h2
      have hmem : tk ∈ runes s := by
        rw [h1, hrun]
        simp
      have hne := runes_token_ne_nil s.length s (le_refl _) tk hmem
      rw [h3, hrun, List.flatMap_cons] at hnil
      exact hne (List.append_eq_nil.1 hnil).1
    · rw [hr]
      exact h4

/-- The path of a record that `NewPackage` returns is a field of the line. -/
theorem NewPackage_path_mem (l : GoString) (r : Package) (h : NewPackage l = .ok r) :
    r.Path ∈ Fields l := by
  by_cases h3 : 3 ≤ (Fields l).length
  · rw [NewPackage_three_fields l h3] at h
    simp only [Except.ok.injEq] at h
    rw [← h]
    simp only []
    rw [List.getD_eq_getElem _ _ (by omega)]
    exact List.getElem_mem _
  · rw [NewPackage_few_fields l (by omega)] at h
    cases h

theorem GoMap.mem_insert {V : Type} (m : GoMap V) (k : GoString) (v : V) (e : GoString × V)
    (h : e ∈ m.insert k v) : e = (k, v) ∨ e ∈ m := by
  induction m with
  | nil =>
    simp only [GoMap.insert, List.mem_singleton] at h
    exact Or.inl h
  | cons e1 rest ih =>
    obtain ⟨k1, v1⟩ := e1
    simp only [GoMap.insert] at h
    by_cases h1 : k1 = k
    · rw [if_pos h1] at h
      rcases List.mem_cons.1 h with h | h
      · exact Or.inl h
      · exact Or.inr (List.mem_cons_of_mem _ h)
    · rw [if_neg h1] at h
      rcases List.mem_cons.1 h with h | h
      · exact Or.inr (by rw [h]; exact List.mem_cons_self _ _)
      · rcases ih h with h | h
        · exact Or.inl h
        · exact Or.inr (List.mem_cons_of_mem _ h)

theorem GoMap.mem_of_find {V : Type} (m : GoMap V) (k : GoString) (v : V)
    (h : m.find k = some v) : (k, v) ∈ m := by
  induction m with
  | nil => simp [GoMap.find] at h
  | cons e1 rest ih =>
    obtain ⟨k1, v1⟩ := e1
    simp only [GoMap.find] at h
    by_cases h1 : k1 = k
    · rw [if_pos h1] at h
      simp only [Option.some.injEq] at h
      rw [h1, h]
      exact List.mem_cons_self _ _
    · rw [if_neg h1] at h
      exact List.mem_cons_of_mem _ (ih h)

/-- Every entry that the loop body leaves in the mapping was there before or
is a record parsed from one of the lines, stored under its own path. -/
theorem addLines_entries : ∀ (ls : List GoString) (pkgs m : GoMap Package),
    addLines ls pkgs = .ok m → ∀ e ∈ m,
      e ∈ pkgs ∨ ∃ l ∈ ls, NewPackage l = .ok e.2 ∧ e.1 = e.2.Path := by
  intro ls
  induction ls with
  | nil =>
    intro pkgs m h e he
    simp only [addLines, Except.ok.injEq] at h
    exact Or.inl (h ▸ he)
  | cons a rest ih =>
    intro pkgs m h e he
    simp only [addLines] at h
    by_cases hb : (TrimSpace a).length > 0
    · rw [if_pos hb] at h
      cases hn : NewPackage a with
      | error p =>
        rw [hn] at h
        cases h
      | ok pkg =>
        rw [hn] at h
        rcases ih _ m h e he with h1 | ⟨l, hl, h2, h3⟩
        · rcases GoMap.mem_insert pkgs pkg.Path pkg e h1 with h1 | h1
          · refine Or.inr ⟨a, List.mem_cons_self _ _, ?_, ?_⟩
            · rw [h1]
              exact hn
            · rw [h1]
          · exact Or.inl h1
        · exact Or.inr ⟨l, List.mem_cons_of_mem _ hl, h2, h3⟩
    · rw [if_neg hb] at h
      rcases ih _ m h e he with h1 | ⟨l, hl, h2, h3⟩
      · exact Or.inl h1
      · exact Or.inr ⟨l, List.mem_cons_of_mem _ hl, h2, h3⟩

/-- A load that returns `nil` has opened the file, read it to a clean end and
installed the mapping that the loop body built from its lines. -/
theorem loadPackages_success (fs : FileSystem) (pl : PackageList)
    (h : (loadPackages fs pl).2 = .ok none) :
    ∃ f m, fs pl.file = .ok f ∧ f.fault = none ∧ addLines f.lines [] = .ok m ∧
      (loadPackages fs pl).1 = { pl with packages := m } := by
  cases hopen : fs pl.file with
  | error e =>
    simp [loadPackages, hopen] at h
  | ok f =>
    rw [loadPackages_eq fs pl f hopen] at h ⊢
    cases ha : addLines f.lines [] with
    | error p =>
      rw [ha] at h
      simp at h
    | ok m =>
      rw [ha] at h
      cases hft : f.fault with
      | none =>
        refine ⟨f, m, rfl, hft, ha, ?_⟩
        simp only [hft]
      | some msg =>
        rw [hft] at h
        simp at h

/-- The entries of a registry after a load that returns `nil`: each record
stands under its own path, which is a field of a line of the file. -/
theorem loaded_entries (fs : FileSystem) (pl : PackageList)
    (h : (loadPackages fs pl).2 = .ok none) (e : GoString × Package)
    (he : e ∈ (loadPackages fs pl).1.packages) :
    e.1 = e.2.Path ∧ ∃ l, e.2.Path ∈ Fields l := by
  obtain ⟨f, m, _, _, ha, hm⟩ := loadPackages_success fs pl h
  rw [hm] at he
  rcases addLines_entries f.lines [] m ha e he with h1 | ⟨l, _, h2, h3⟩
  · cases h1
  · exact ⟨h3, l, NewPackage_path_mem l e.2 h2⟩

/-- C14: after a load that returns `nil`, every key of the entries mapping is
the `Path` of the record stored under it, is not empty, and holds no white
space rune. -/
theorem loaded_keys_are_paths (fs : FileSystem) (pl : PackageList)
    (h : (loadPackages fs pl).2 = .ok none) (k : GoString) (r : Package)
    (hk : (k, r) ∈ (loadPackages fs pl).1.packages) :
    k = r.Path ∧ k ≠ [] ∧ ∀ tk ∈ runes k, isSpace tk.1 = false := by
  obtain ⟨h1, l, h2⟩ := loaded_entries fs pl h (k, r) hk
  have h3 := Fields_mem l r.Path h2
  simp only [] at h1
  rw [h1]
  exact ⟨rfl, h3⟩

/-- Witness of C14: the keys of the scenario registry. -/
theorem loaded_keys_are_paths_witness :
    bytes "/foo/sub" = subRecord.Path ∧ bytes "/foo/sub" ≠ [] ∧
      ∀ tk ∈ runes (bytes "/foo/sub"), isSpace tk.1 = false :=
  loaded_keys_are_paths scenarioFS { packages := [], file := bytes "pkgs", masqHost := [] }
    (by decide) (bytes "/foo/sub") subRecord (by decide)

/-! ## Lookup: longest key, termination, idempotence -/

theorem GoMap.find_eq_none {V : Type} (m : GoMap V) (k : GoString) (h : k ∉ m.keys) :
    m.find k = none := by
  induction m with
  | nil => rfl
  | cons e rest ih =>
    obtain ⟨k1, v1⟩ := e
    simp only [GoMap.keys, List.map_cons, List.mem_cons, not_or] at h
    simp only [GoMap.find, if_neg (Ne.symm h.1)]
    exact ih h.2

/-- In a list that stands from the longest to the shortest, the first element
on which `f` gives a value is the longest such element. -/
theorem findSome_longest {α : Type} (f : GoString → Option α) (k : GoString) (r : α)
    (hk : f k = some r) :
    ∀ l : List GoString, l.Pairwise (fun a b => b.length < a.length) → k ∈ l →
      (∀ k2 ∈ l, f k2 ≠ none → k2.length ≤ k.length) → l.findSome? f = some r := by
  intro l
  induction l with
  | nil => intro _ h; cases h
  | cons c rest ih =>
    intro hp hmem hmax
    obtain ⟨hp1, hp2⟩ := List.pairwise_cons.1 hp
    rw [List.findSome?_cons]
    rcases List.mem_cons.1 hmem with rfl | hmem
    · rw [hk]
    · have hlt := hp1 k hmem
      have hc : f c = none := by
        by_contra hne
        have := hmax c (List.mem_cons_self _ _) hne
        omega
      rw [hc]
      exact ih hp2 hmem (fun k2 h2 => hmax k2 (List.mem_cons_of_mem _ h2))

theorem matchesPath_length (k p : GoString) (h : matchesPath k p) :
    k.length ≤ p.length ∧ (k.length = p.length → k = p) := by
  rcases h with rfl | h
  · exact ⟨le_refl _, fun _ => rfl⟩
  · have := List.IsPrefix.length_le h
    simp only [List.length_append, List.length_singleton] at this
    exact ⟨by omega, fun h2 => by omega⟩

/-- C15: in a registry whose keys are not empty, for a path that begins with a
slash, `getPackage` returns the record of the longest key that is the path or
is followed by a slash in the path, and reports not-found exactly when no key
is so; the key `/foo` does not match `/foobar`, and the key `/` does not
match `/x`. -/
theorem getPackage_longest_key :
    (∀ (pl : PackageList) (p : GoString), (∀ k ∈ pl.packages.keys, k ≠ []) →
      p.head? = some 47 →
      (∀ k r, pl.packages.find k = some r → matchesPath k p →
        (∀ k2, pl.packages.find k2 ≠ none → matchesPath k2 p → k2.length ≤ k.length) →
        getPackage pl p = .ok (some r)) ∧
      (getPackage pl p = .ok none ↔ ∀ k, matchesPath k p → pl.packages.find k = none)) ∧
    getPackage fooOnly (bytes "/foobar") = .ok none ∧
    getPackage rootOnly (bytes "/x") = .ok none := by
  refine ⟨?_, by decide, by decide⟩
  intro pl p hkeys hp
  have hempty : pl.packages.find [] = none :=
    GoMap.find_eq_none _ _ (fun h => hkeys [] h rfl)
  have hroot : p = [] ∨ p.head? = some 47 := Or.inr hp
  refine ⟨?_, ?_⟩
  · intro k r hk hm hmax
    rw [getPackage_eq]
    cases hf : pl.packages.find p with
    | some r0 =>
      have h1 := hmax p (by rw [hf]; simp) (Or.inl rfl)
      obtain ⟨h2, h3⟩ := matchesPath_length k p hm
      have hkp : k = p := h3 (by omega)
      rw [hkp, hf] at hk
      simp only [hk]
    | none =>
      have hkne : k ≠ [] := by
        intro h
        rw [h, hempty] at hk
        cases hk
      have hmem : k ∈ candidatePrefixes p := (mem_candidatePrefixes p k).2 ⟨hkne, hm⟩
      have hfind := findSome_longest pl.packages.find k r hk (candidatePrefixes p)
        (candidatePrefixes_sorted p) hmem
        (fun k2 h2 hne => hmax k2 hne ((mem_candidatePrefixes p k2).1 h2).2)
      simp only [hfind]
  · rw [getPackage_eq]
    constructor
    · intro h k hm
      cases hf : pl.packages.find p with
      | some r0 =>
        rw [hf] at h
        simp at h
      | none =>
        rw [hf] at h
        simp only [] at h
        cases hc : (candidatePrefixes p).findSome? pl.packages.find with
        | some r0 =>
          rw [hc] at h
          simp at h
        | none =>
          by_cases hk : k = []
          · rw [hk]
            exact hempty
          · exact List.findSome?_eq_none_iff.1 hc k ((mem_candidatePrefixes p k).2 ⟨hk, hm⟩)
    · intro h
      have hf : pl.packages.find p = none := h p (Or.inl rfl)
      have hc : (candidatePrefixes p).findSome? pl.packages.find = none :=
        List.findSome?_eq_none_iff.2
          (fun k hk => h k ((mem_candidatePrefixes p k).1 hk).2)
      simp only [hf, hc, if_pos hroot]

/-- Witness of C15: in the scenario registry the longest key that matches
`/foo/sub/x` is `/foo/sub`. -/
theorem getPackage_longest_key_witness :
    getPackage scenarioRegistry (bytes "/foo/sub/x") = .ok (some subRecord) :=
  (getPackage_longest_key.1 scenarioRegistry (bytes "/foo/sub/x") (by decide) (by decide)).1
    (bytes "/foo/sub") subRecord (by decide) (Or.inr (by decide))
    (by
      intro k2 hk2 _
      have hmem : k2 ∈ scenarioRegistry.packages.keys := by
        by_contra hn
        exact hk2 (GoMap.find_eq_none _ _ hn)
      rw [scenarioRegistry_packages] at hmem
      simp only [GoMap.keys, List.map_cons, List.map_nil, List.mem_cons, List.mem_singleton,
        List.not_mem_nil, or_false] at hmem
      rcases hmem with rfl | rfl <;> decide)

/-- A candidate that holds a slash is sliced at a bound within its range and
becomes shorter. -/
theorem sliceTo_lastSlash (cand : GoString) (h : 47 ∈ cand) :
    ∃ next, sliceTo cand (LastIndex cand (bytes "/")) = .ok next ∧
      next.length < cand.length := by
  rw [bytes_slash]
  rcases LastIndex_single 47 cand with ⟨_, h2⟩ | ⟨i, h1, h2, _, _⟩
  · exact absurd h h2
  · refine ⟨cand.take i, ?_, ?_⟩
    · rw [h1]
      simp only [sliceTo]
      rw [if_pos ⟨by omega, by omega⟩]
      simp
    · simp only [List.length_take]
      omega

/-- A record that `getPackage` returns is stored under an initial part of the path. -/
theorem getPackage_source (pl : PackageList) (p : GoString) (r : Package)
    (h : getPackage pl p = .ok (some r)) :
    ∃ c, c <+: p ∧ pl.packages.find c = some r := by
  rw [getPackage_eq] at h
  cases hf : pl.packages.find p with
  | some r0 =>
    rw [hf] at h
    simp only [Except.ok.injEq, Option.some.injEq] at h
    exact ⟨p, List.prefix_refl _, by rw [hf, h]⟩
  | none =>
    rw [hf] at h
    simp only [] at h
    cases hc : (candidatePrefixes p).findSome? pl.packages.find with
    | some r0 =>
      rw [hc] at h
      simp only [Except.ok.injEq, Option.some.injEq] at h
      obtain ⟨c, hmem, hfc⟩ := List.exists_of_findSome?_eq_some hc
      exact ⟨c, (candidatePrefixes_isPrefix p c hmem).2, by rw [hfc, h]⟩
    | none =>
      rw [hc] at h
      simp only [] at h
      split at h <;> cases h

/-- C17: in the registry that a load which returns `nil` leaves, a record that
`getPackage` returns for a path is returned again for its own `Path`, and this
`Path` is the path or an initial part of it. -/
theorem getPackage_idempotent (fs : FileSystem) (pl : PackageList)
    (h : (loadPackages fs pl).2 = .ok none) (p : GoString) (r : Package)
    (hg : getPackage (loadPackages fs pl).1 p = .ok (some r)) :
    getPackage (loadPackages fs pl).1 r.Path = .ok (some r) ∧ r.Path <+: p := by
  obtain ⟨c, hc1, hc2⟩ := getPackage_source _ p r hg
  have hmem := GoMap.mem_of_find _ c r hc2
  have hpath : c = r.Path := (loaded_entries fs pl h (c, r) hmem).1
  rw [← hpath]
  refine ⟨?_, hc1⟩
  simp only [getPackage, hc2]

/-- Witness of C17: `/foo/sub/x` resolves to the record of `/foo/sub`, and so does `/foo/sub`. -/
theorem getPackage_idempotent_witness :
    getPackage
        (loadPackages scenarioFS { packages := [], file := bytes "pkgs", masqHost := [] }).1
        subRecord.Path = .ok (some subRecord) ∧
      subRecord.Path <+: bytes "/foo/sub/x" :=
  getPackage_idempotent scenarioFS { packages := [], file := bytes "pkgs", masqHost := [] }
    (by decide) (bytes "/foo/sub/x") subRecord (by decide)

/-! ## Lines as words and white space -/

/-- The runes of `a ++ x` are those of `a` followed by those of `x` when no
rune of `a` changes by what follows it; `Q` is a property that `a` keeps when
its first rune is taken away. -/
theorem runes_append_of_stable (x : GoString) (Q : GoString → Prop)
    (hstep : ∀ a, a ≠ [] → Q a →
      decodeRune (a ++ x) = decodeRune a ∧ Q (a.drop (decodeRune a).2)) :
    ∀ (n : Nat) (a : GoString), a.length ≤ n → Q a → runes (a ++ x) = runes a ++ runes x := by
  intro n
  induction n with
  | zero =>
    intro a h _
    have : a = [] := List.length_eq_zero.1 (by omega)
    subst this
    rfl
  | succ n ih =>
    intro a h hq
    rcases a with _ | ⟨b, t⟩
    · rfl
    · obtain ⟨h1, h2⟩ := decodeRune_width b t
      obtain ⟨hd, hq2⟩ := hstep (b :: t) (by simp) hq
      have hlen : ((b :: t).take (decodeRune (b :: t)).2).length = (decodeRune (b :: t)).2 := by
        rw [List.length_take]
        omega
      have hsplit : (b :: t) ++ x
          = (b :: t).take (decodeRune (b :: t)).2 ++ ((b :: t).drop (decodeRune (b :: t)).2 ++ x) := by
        rw [← List.append_assoc, List.take_append_drop]
      have hne : (b :: t).take (decodeRune (b :: t)).2 ≠ [] := by
        intro hnil
        rw [hnil] at hlen
        simp at hlen
        omega
      rw [hsplit, runes_append_token _ _ (decodeRune (b :: t)).1 hne (by
        rw [← hsplit, hd, hlen])]
      rw [ih _ (by
        simp only [List.length_drop, List.length_cons] at h ⊢
        omega) hq2, runes_cons b t]
      rfl

/-- White space keeps its runes whatever follows it. -/
theorem runes_append_white (w x : GoString) (hw : isWhite w) :
    runes (w ++ x) = runes w ++ runes x := by
  refine runes_append_of_stable x isWhite ?_ w.length w (le_refl _) hw
  intro a ha hq
  obtain ⟨b, t, rfl⟩ := List.exists_cons_of_ne_nil ha
  have hq1 := hq
  simp only [isWhite] at hq
  rw [runes_cons] at hq
  refine ⟨decodeRune_append_of_space _ x (hq _ (List.mem_cons_self _ _)), ?_⟩
  intro tk htk
  exact hq tk (List.mem_cons_of_mem _ htk)

/-- A string keeps its runes when what follows it is empty or begins with a
byte that cannot continue an encoding. -/
theorem runes_append_start (f x : GoString)
    (hx : x = [] ∨ ∃ b0 u, x = b0 :: u ∧ (b0 < 0x80 ∨ 0xBF < b0)) :
    runes (f ++ x) = runes f ++ runes x := by
  refine runes_append_of_stable x (fun _ => True) ?_ f.length f (le_refl _) trivial
  intro a ha _
  exact ⟨decodeRune_append_of_start a x ha hx, trivial⟩

/-- White space is empty or begins with a byte that cannot continue an encoding. -/
theorem white_start (w x : GoString) (hw : isWhite w) (hne : w ≠ []) :
    ∃ b0 u, w ++ x = b0 :: u ∧ (b0 < 0x80 ∨ 0xBF < b0) := by
  obtain ⟨b, t, rfl⟩ := List.exists_cons_of_ne_nil hne
  refine ⟨b, t ++ x, rfl, ?_⟩
  simp only [isWhite] at hw
  rw [runes_cons] at hw
  exact space_first_byte b t (hw _ (List.mem_cons_self _ _))

theorem runes_eq_nil (s : GoString) (h : runes s = []) : s = [] := by
  rcases s with _ | ⟨b, t⟩
  · rfl
  · rw [runes_cons] at h
    cases h

theorem fieldsLoop_spaces (rest : List (Nat × GoString)) :
    ∀ (ws : List (Nat × GoString)), (∀ tk ∈ ws, isSpace tk.1 = true) →
      fieldsLoop (ws ++ rest) none = fieldsLoop rest none := by
  intro ws
  induction ws with
  | nil => intro _; rfl
  | cons tk ws ih =>
    intro h
    obtain ⟨r, w⟩ := tk
    have hr : isSpace r = true := h (r, w) (List.mem_cons_self _ _)
    simp only [List.cons_append, fieldsLoop, hr, if_true, List.append_eq]
    exact ih (fun tk htk => h tk (List.mem_cons_of_mem _ htk))

theorem fieldsLoop_spaces_some (rest : List (Nat × GoString)) (c : GoString)
    (ws : List (Nat × GoString)) (hne : ws ≠ []) (h : ∀ tk ∈ ws, isSpace tk.1 = true) :
    fieldsLoop (ws ++ rest) (some c) = c :: fieldsLoop rest none := by
  obtain ⟨tk, ws2, rfl⟩ := List.exists_cons_of_ne_nil hne
  obtain ⟨r, w⟩ := tk
  have hr : isSpace r = true := h (r, w) (List.mem_cons_self _ _)
  simp only [List.cons_append, fieldsLoop, hr, if_true, List.append_eq]
  rw [fieldsLoop_spaces rest ws2 (fun tk htk => h tk (List.mem_cons_of_mem _ htk))]

theorem fieldsLoop_word_some (rest : List (Nat × GoString)) :
    ∀ (fs : List (Nat × GoString)) (c : GoString), (∀ tk ∈ fs, isSpace tk.1 = false) →
      fieldsLoop (fs ++ rest) (some c) = fieldsLoop rest (some (c ++ fs.flatMap Prod.snd)) := by
  intro fs
  induction fs with
  | nil => intro c _; simp
  | cons tk fs ih =>
    intro c h
    obtain ⟨r, w⟩ := tk
    have hr : isSpace r = false := h (r, w) (List.mem_cons_self _ _)
    simp only [List.cons_append, fieldsLoop, hr, Bool.false_eq_true, if_false, List.append_eq]
    rw [ih _ (fun tk htk => h tk (List.mem_cons_of_mem _ htk))]
    simp

theorem fieldsLoop_word_none (rest : List (Nat × GoString)) (fs : List (Nat × GoString))
    (hne : fs ≠ []) (h : ∀ tk ∈ fs, isSpace tk.1 = false) :
    fieldsLoop (fs ++ rest) none = fieldsLoop rest (some (fs.flatMap Prod.snd)) := by
  obtain ⟨tk, fs2, rfl⟩ := List.exists_cons_of_ne_nil hne
  obtain ⟨r, w⟩ := tk
  have hr : isSpace r = false := h (r, w) (List.mem_cons_self _ _)
  simp only [List.cons_append, fieldsLoop, hr, Bool.false_eq_true, if_false, List.append_eq]
  rw [fieldsLoop_word_some rest fs2 w (fun tk htk => h tk (List.mem_cons_of_mem _ htk))]
  simp

/-- The loop of `strings.Fields` over a word, the white space after it and
further runes: the word, then the fields of the further runes. -/
theorem fieldsLoop_word_white (f w : GoString) (rest : List (Nat × GoString))
    (hf : isWord f) (hw : isWhite w) (hne : w ≠ []) :
    fieldsLoop (runes f ++ (runes w ++ rest)) none = f :: fieldsLoop rest none := by
  have hfr : runes f ≠ [] := fun h => hf.1 (runes_eq_nil f h)
  have hwr : runes w ≠ [] := fun h => hne (runes_eq_nil w h)
  rw [fieldsLoop_word_none _ _ hfr hf.2, runes_join f.length f (le_refl _),
    fieldsLoop_spaces_some rest f (runes w) hwr hw]

/-- The fields of separated words are the words. -/
theorem fieldsLoop_separated : ∀ (items : List (GoString × GoString)), separated items →
    fieldsLoop (runes (items.flatMap (fun it => it.1 ++ it.2))) none = items.map Prod.fst := by
  intro items
  induction items with
  | nil => intro _; rfl
  | cons it rest ih =>
    intro h
    obtain ⟨f, w⟩ := it
    cases rest with
    | nil =>
      obtain ⟨hf, hw⟩ := h
      simp only [List.flatMap_cons, List.flatMap_nil, List.append_nil, List.map_cons,
        List.map_nil]
      have hfr : runes f ≠ [] := fun h => hf.1 (runes_eq_nil f h)
      by_cases hne : w = []
      · subst hne
        have := fieldsLoop_word_none [] (runes f) hfr hf.2
        rw [List.append_nil] at this ⊢
        rw [this, runes_join f.length f (le_refl _)]
        rfl
      · rw [runes_append_start f w (Or.inr (by
          have := white_start w [] hw hne
          rwa [List.append_nil] at this))]
        have := fieldsLoop_word_white f w [] hf hw hne
        rw [List.append_nil] at this
        rw [this]
        rfl
    | cons it2 rest2 =>
      obtain ⟨hf, hw, hne, hrest⟩ := h
      have hbody : ((f, w) :: it2 :: rest2).flatMap (fun it => it.1 ++ it.2)
          = f ++ (w ++ (it2 :: rest2).flatMap (fun it => it.1 ++ it.2)) := by
        simp only [List.flatMap_cons, List.append_assoc]
      rw [hbody, runes_append_start f _ (Or.inr (white_start w _ hw hne)),
        runes_append_white w _ hw, fieldsLoop_word_white f w _ hf hw hne, ih hrest]
      rfl

/-- The fields of a line made of white space and separated words are the words. -/
theorem Fields_assemble (lead : GoString) (items : List (GoString × GoString))
    (hlead : isWhite lead) (hsep : separated items) :
    Fields (assemble lead items) = items.map Prod.fst := by
  rw [Fields, assemble, runes_append_white lead _ hlead, fieldsLoop_spaces _ _ hlead]
  exact fieldsLoop_separated items hsep

/-- The runes of a rune's bytes followed by a string `y`, when the rune was
decoded with that string and more after it. -/
theorem runes_token_append (w y z : GoString) (r : Nat) (hw : w ≠ [])
    (hd : decodeRune (w ++ (y ++ z)) = (r, w.length)) :
    runes (w ++ y) = (r, w) :: runes y := by
  apply runes_append_token w y r hw
  have h := decodeRune_append_of_width (w ++ y) z
    (fun h => hw (List.append_eq_nil.1 h).1)
    (by rw [List.append_assoc, hd]; simp)
  rw [h, List.append_assoc, hd]

/-- Every line is white space followed by separated words. -/
theorem line_is_assembled : ∀ (n : Nat) (s : GoString), s.length ≤ n →
    ∃ lead items, s = assemble lead items ∧ isWhite lead ∧ separated items := by
  intro n
  induction n with
  | zero =>
    intro s h
    have : s = [] := List.length_eq_zero.1 (by omega)
    subst this
    exact ⟨[], [], rfl, by simp [isWhite, runes, runesFrom], trivial⟩
  | succ n ih =>
    intro s h
    rcases s with _ | ⟨b, t⟩
    · exact ⟨[], [], rfl, by simp [isWhite, runes, runesFrom], trivial⟩
    · obtain ⟨h1, h2⟩ := decodeRune_width b t
      obtain ⟨lead, items, hs, hlead, hsep⟩ := ih ((b :: t).drop (decodeRune (b :: t)).2) (by
        simp only [List.length_drop, List.length_cons] at h ⊢
        omega)
      generalize hwdef : (b :: t).take (decodeRune (b :: t)).2 = w at *
      generalize hrdef : (decodeRune (b :: t)).1 = r at *
      have hsplit : b :: t = w ++ (b :: t).drop (decodeRune (b :: t)).2 := by
        rw [← hwdef, List.take_append_drop]
      have hwlen : w.length = (decodeRune (b :: t)).2 := by
        rw [← hwdef, List.length_take]
        omega
      have hwne : w ≠ [] := by
        intro hnil
        rw [hnil] at hwlen
        simp at hwlen
        omega
      have hdec : decodeRune (w ++ (b :: t).drop (decodeRune (b :: t)).2) = (r, w.length) := by
        rw [← hsplit, hwlen, ← hrdef]
      rw [hs] at hsplit hdec
      rw [hsplit]
      by_cases hsp : isSpace r = true
      · refine ⟨w ++ lead, items, by simp [assemble], ?_, hsep⟩
        have hr := runes_token_append w lead _ r hwne (by simpa [assemble] using hdec)
        intro tk htk
        rw [hr] at htk
        rcases List.mem_cons.1 htk with rfl | htk
        · exact hsp
        · exact hlead tk htk
      · have hsp2 : isSpace r = false := by simpa using hsp
        by_cases hl : lead = []
        · subst hl
          rcases items with _ | ⟨⟨f, sep⟩, rest⟩
          · have hr := runes_token_append w [] [] r hwne (by simpa [assemble] using hdec)
            rw [List.append_nil] at hr
            have hword : isWord w := by
              refine ⟨hwne, ?_⟩
              intro tk htk
              rw [hr] at htk
              simp only [runes_nil, List.mem_singleton] at htk
              rw [htk]
              exact hsp2
            exact ⟨[], [(w, [])], by simp [assemble], hlead, hword, hlead⟩
          · have hr := runes_token_append w f _ r hwne (by
              simpa [assemble] using hdec)
            have hword : ∀ hf : isWord f, isWord (w ++ f) := by
              intro hf
              refine ⟨fun h => hwne (List.append_eq_nil.1 h).1, ?_⟩
              intro tk htk
              rw [hr] at htk
              rcases List.mem_cons.1 htk with rfl | htk
              · exact hsp2
              · exact hf.2 tk htk
            refine ⟨[], (w ++ f, sep) :: rest, by simp [assemble], hlead, ?_⟩
            cases rest with
            | nil => exact ⟨hword hsep.1, hsep.2⟩
            | cons it2 rest2 => exact ⟨hword hsep.1, hsep.2.1, hsep.2.2.1, hsep.2.2.2⟩
        · have hr := runes_token_append w [] _ r hwne (by simpa using hdec)
          rw [List.append_nil] at hr
          have hword : isWord w := by
            refine ⟨hwne, ?_⟩
            intro tk htk
            rw [hr] at htk
            simp only [runes_nil, List.mem_singleton] at htk
            rw [htk]
            exact hsp2
          refine ⟨[], (w, lead) :: items, by simp [assemble], by simp [isWhite, runes, runesFrom], ?_⟩
          cases items with
          | nil => exact ⟨hword, hlead⟩
          | cons it2 rest2 => exact ⟨hword, hlead, hl, hsep⟩

theorem getD_take_of_lt {α : Type} (l : List α) (d : α) (i n : Nat) (h : i < n) :
    (l.take n).getD i d = l.getD i d := by
  simp [List.getD_eq_getElem?_getD, List.getElem?_take, h]

/-- C18: the record of a line with at least four fields depends only on its
first four fields: a second line with the same first four fields gives the
same record, without any error; the fields of a line written as white
space and separated words are these words, whatever white space stands
before, between and after them and whatever words follow the fourth; and
every line can be written so. -/
theorem NewPackage_first_four :
    (∀ l1 l2 : GoString, 4 ≤ (Fields l1).length →
      (Fields l2).take 4 = (Fields l1).take 4 →
      NewPackage l2 = NewPackage l1 ∧
      NewPackage l1
        = .ok { Path := (Fields l1).getD 0 [], Vcs := (Fields l1).getD 1 [],
                Repo := (Fields l1).getD 2 [], Doc := (Fields l1).getD 3 [] }) ∧
    (∀ (lead : GoString) (items : List (GoString × GoString)), isWhite lead →
      separated items → Fields (assemble lead items) = items.map Prod.fst) ∧
    (∀ line : GoString, ∃ lead items,
      line = assemble lead items ∧ isWhite lead ∧ separated items) := by
  refine ⟨?_, fun lead items h1 h2 => Fields_assemble lead items h1 h2,
    fun line => line_is_assembled line.length line (le_refl _)⟩
  intro l1 l2 h4 htake
  have hlen : 4 ≤ (Fields l2).length := by
    have := congrArg List.length htake
    simp only [List.length_take] at this
    omega
  have hget : ∀ i, i < 4 → (Fields l2).getD i [] = (Fields l1).getD i [] := by
    intro i hi
    rw [← getD_take_of_lt (Fields l2) [] i 4 hi, ← getD_take_of_lt (Fields l1) [] i 4 hi, htake]
  rw [NewPackage_three_fields l1 (by omega), NewPackage_three_fields l2 (by omega),
    hget 0 (by omega), hget 1 (by omega), hget 2 (by omega), hget 3 (by omega),
    if_pos (by omega : 3 < (Fields l1).length), if_pos (by omega : 3 < (Fields l2).length)]
  exact ⟨rfl, rfl⟩

/-- Witness of C18: more white space and two more words do not change the record. -/
theorem NewPackage_first_four_witness :
    (NewPackage (bytes " \t/foo   git\tu  d extra more\r")
        = NewPackage (bytes "/foo git u d") ∧
      NewPackage (bytes "/foo git u d")
        = .ok { Path := bytes "/foo", Vcs := bytes "git", Repo := bytes "u", Doc := bytes "d" }) ∧
    Fields (assemble (bytes " \t")
        [(bytes "/foo", bytes "   "), (bytes "git", bytes "\t"), (bytes "u", bytes "  "),
         (bytes "d", bytes " "), (bytes "extra", bytes " "), (bytes "more", bytes "\r")])
      = [bytes "/foo", bytes "git", bytes "u", bytes "d", bytes "extra", bytes "more"] :=
  ⟨NewPackage_first_four.1 (bytes "/foo git u d") (bytes " \t/foo   git\tu  d extra more\r")
      (by decide) (by decide),
   NewPackage_first_four.2.1 (bytes " \t")
      [(bytes "/foo", bytes "   "), (bytes "git", bytes "\t"), (bytes "u", bytes "  "),
       (bytes "d", bytes " "), (bytes "extra", bytes " "), (bytes "more", bytes "\r")]
      (by unfold isWhite; decide)
      (by simp only [separated, isWord, isWhite]; decide)⟩

/-! ## The mapping is replaced as a whole -/

/-- A call of `loadPackages` leaves the registry as it was, or replaces its
entries by the whole mapping built from the file: `pl.packages` is assigned
once, after the loop. -/
theorem loadPackages_snapshot (fs : FileSystem) (pl : PackageList) :
    (loadPackages fs pl).1 = pl ∨
    ∃ f m, fs pl.file = .ok f ∧ addLines f.lines [] = .ok m ∧
      (loadPackages fs pl) = ({ pl with packages := m }, .ok none) := by
  cases hopen : fs pl.file with
  | error e => left; simp [loadPackages, hopen]
  | ok f =>
    rw [loadPackages_eq fs pl f hopen]
    cases ha : addLines f.lines [] with
    | error p => left; rfl
    | ok m =>
      cases hft : f.fault with
      | none => right; exact ⟨f, m, rfl, ha, rfl⟩
      | some msg => left; rfl

/-! ## Termination of the loop of `getPackage` -/

/-- The loop of `getPackage` is its round, repeated. -/
theorem getPackageLoop_step (m : GoMap Package) (fuel : Nat) (cand : GoString) :
    getPackageLoop m (fuel + 1) cand
      = match getPackageStep m cand with
        | .done result => result
        | .next next => getPackageLoop m fuel next := by
  simp only [getPackageLoop, getPackageStep]
  by_cases hc : cand = []
  · simp only [if_pos hc]
  · simp only [if_neg hc]
    cases m.find cand with
    | some pkg => rfl
    | none =>
      simp only []
      cases sliceTo cand (LastIndex cand (bytes "/")) with
      | error e => rfl
      | ok next => rfl

/-- A round that goes on leaves a candidate that is the old one cut before
its last slash: a strictly shorter initial part. -/
theorem getPackageStep_next (m : GoMap Package) (cand next : GoString)
    (h : getPackageStep m cand = .next next) :
    cand ≠ [] ∧ m.find cand = none ∧
      sliceTo cand (LastIndex cand (bytes "/")) = .ok next ∧
      next <+: cand ∧ next.length < cand.length := by
  simp only [getPackageStep] at h
  by_cases hc : cand = []
  · rw [if_pos hc] at h
    cases h
  · rw [if_neg hc] at h
    cases hf : m.find cand with
    | some pkg =>
      rw [hf] at h
      cases h
    | none =>
      rw [hf] at h
      simp only [] at h
      cases hs : sliceTo cand (LastIndex cand (bytes "/")) with
      | error e =>
        rw [hs] at h
        cases h
      | ok nx =>
        rw [hs] at h
        simp only [LoopStep.next.injEq] at h
        subst h
        refine ⟨hc, rfl, rfl, ?_, ?_⟩
        · simp only [sliceTo] at hs
          split at hs
          · simp only [Except.ok.injEq] at hs
            rw [← hs]
            exact List.take_prefix _ _
          · cases hs
        · rw [bytes_slash] at hs
          rcases LastIndex_single 47 cand with ⟨h1, _⟩ | ⟨i, h1, h2, _, _⟩
          · rw [h1] at hs
            simp [sliceTo] at hs
          · rw [h1] at hs
            simp only [sliceTo] at hs
            rw [if_pos ⟨by omega, by omega⟩] at hs
            simp only [Except.ok.injEq, Int.toNat_ofNat] at hs
            rw [← hs, List.length_take]
            omega

/-- With more rounds than the candidate has bytes the loop ends, and
`getPackageLoop` gives its result. -/
theorem getPackageRun_ends (m : GoMap Package) :
    ∀ (rounds : Nat) (cand : GoString), cand.length < rounds →
      getPackageRun m rounds cand = some (getPackageLoop m rounds cand) := by
  intro rounds
  induction rounds with
  | zero => intro cand h; omega
  | succ n ih =>
    intro cand h
    rw [getPackageLoop_step]
    simp only [getPackageRun]
    cases hs : getPackageStep m cand with
    | done r => rfl
    | next nx =>
      simp only []
      have := (getPackageStep_next m cand nx hs).2.2.2.2
      exact ih nx (by omega)

/-- After `k` rounds the candidate is an initial part of the path that has
lost at least `k` bytes. -/
theorem candidateAfter_prefix (m : GoMap Package) :
    ∀ (k : Nat) (p c : GoString), candidateAfter m k p = some c →
      c <+: p ∧ c.length + k ≤ p.length := by
  intro k
  induction k with
  | zero =>
    intro p c h
    simp only [candidateAfter, Option.some.injEq] at h
    subst h
    exact ⟨List.prefix_refl _, le_refl _⟩
  | succ k ih =>
    intro p c h
    simp only [candidateAfter] at h
    cases hs : getPackageStep m p with
    | done r =>
      rw [hs] at h
      cases h
    | next nx =>
      rw [hs] at h
      simp only [] at h
      obtain ⟨h1, h2⟩ := ih nx c h
      obtain ⟨_, _, _, h3, h4⟩ := getPackageStep_next m p nx hs
      exact ⟨h1.trans h3, by omega⟩

/-- A non-empty initial part of a path that begins with a slash holds a slash. -/
theorem prefix_of_rooted (p c : GoString) (hroot : p = [] ∨ p.head? = some 47)
    (hpre : c <+: p) (hne : c ≠ []) : 47 ∈ c := by
  rcases hroot with hp | hp
  · rw [hp] at hpre
    exact absurd (List.prefix_nil.1 hpre) hne
  · obtain ⟨t, ht⟩ := hpre
    rcases c with _ | ⟨c0, ct⟩
    · exact absurd rfl hne
    · rw [← ht] at hp
      simp only [List.cons_append, List.head?_cons, Option.some.injEq] at hp
      rw [hp]
      exact List.mem_cons_self _ _

theorem LastIndex_of_mem (cand : GoString) (h : 47 ∈ cand) :
    0 ≤ LastIndex cand (bytes "/") ∧ LastIndex cand (bytes "/") < cand.length := by
  rw [bytes_slash]
  rcases LastIndex_single 47 cand with ⟨_, h2⟩ | ⟨i, h1, h2, _, _⟩
  · exact absurd h h2
  · rw [h1]
    omega

/-- C16: for a path that is empty or begins with a slash, `getPackage`
terminates and never slices out of range. The loop is its round repeated; a
round that goes on cuts the candidate before its last slash, which makes it
strictly shorter; run from the path, the loop ends by itself within as many
rounds as the path has bytes, and one more, with a result that is no panic
and is the same however many rounds more are allowed; `getPackage` returns
without a panic; and the candidate after `k` rounds has lost
at least `k` bytes of the path and, when it is not empty, holds a slash, so
that `LastIndex` is not -1 and the slice is within range and shorter. -/
theorem getPackage_terminates (pl : PackageList) (p : GoString)
    (hroot : p = [] ∨ p.head? = some 47) :
    (∀ fuel cand, getPackageLoop pl.packages (fuel + 1) cand
        = match getPackageStep pl.packages cand with
          | .done result => result
          | .next next => getPackageLoop pl.packages fuel next) ∧
    (∀ cand next, getPackageStep pl.packages cand = .next next →
        sliceTo cand (LastIndex cand (bytes "/")) = .ok next ∧
          next.length < cand.length) ∧
    (∃ res, ∀ rounds, p.length < rounds →
        getPackageRun pl.packages rounds p = some (.ok res) ∧
          getPackageLoop pl.packages rounds p = .ok res) ∧
    (∃ res, getPackage pl p = .ok res) ∧
    (∀ k cand, candidateAfter pl.packages k p = some cand →
        cand.length + k ≤ p.length ∧
        (cand ≠ [] →
          47 ∈ cand ∧ 0 ≤ LastIndex cand (bytes "/") ∧
            ∃ next, sliceTo cand (LastIndex cand (bytes "/")) = .ok next ∧
              next.length < cand.length)) := by
  have hloop : ∃ res, getPackageLoop pl.packages (p.length + 1) p = .ok res := by
    rw [getPackageLoop_eq pl.packages (p.length + 1) p (Nat.lt_succ_self _)]
    cases (candidatePrefixes p).findSome? pl.packages.find with
    | some r => exact ⟨_, rfl⟩
    | none => exact ⟨none, by simp only [if_pos hroot]⟩
  refine ⟨getPackageLoop_step pl.packages, ?_, ?_, ?_, ?_⟩
  · intro cand next h
    obtain ⟨_, _, h3, _, h5⟩ := getPackageStep_next pl.packages cand next h
    exact ⟨h3, h5⟩
  · obtain ⟨res, hres⟩ := hloop
    refine ⟨res, fun rounds hr => ?_⟩
    have hsame : getPackageLoop pl.packages rounds p = .ok res := by
      rw [← hres, getPackageLoop_eq pl.packages rounds p hr,
        getPackageLoop_eq pl.packages (p.length + 1) p (Nat.lt_succ_self _)]
    exact ⟨by rw [getPackageRun_ends pl.packages rounds p hr, hsame], hsame⟩
  · simp only [getPackage]
    cases pl.packages.find p with
    | some r => exact ⟨_, rfl⟩
    | none => exact hloop
  · intro k cand h
    obtain ⟨h1, h2⟩ := candidateAfter_prefix pl.packages k p cand h
    refine ⟨h2, fun hne => ?_⟩
    have h47 := prefix_of_rooted p cand hroot h1 hne
    exact ⟨h47, (LastIndex_of_mem cand h47).1, sliceTo_lastSlash cand h47⟩

/-- Witness of C16: the lookup of `/bar/x/y` in the scenario registry goes
through the candidates `/bar/x/y`, `/bar/x`, `/bar` and the empty string, and
ends in the fourth round with not-found. -/
theorem getPackage_terminates_witness :
    candidateAfter scenarioRegistry.packages 1 (bytes "/bar/x/y") = some (bytes "/bar/x") ∧
    candidateAfter scenarioRegistry.packages 2 (bytes "/bar/x/y") = some (bytes "/bar") ∧
    candidateAfter scenarioRegistry.packages 3 (bytes "/bar/x/y") = some [] ∧
    candidateAfter scenarioRegistry.packages 4 (bytes "/bar/x/y") = none ∧
    getPackageRun scenarioRegistry.packages 3 (bytes "/bar/x/y") = none ∧
    getPackageRun scenarioRegistry.packages 4 (bytes "/bar/x/y") = some (.ok none) ∧
    getPackage scenarioRegistry (bytes "/bar/x/y") = .ok none ∧
    ∃ res, ∀ rounds, (bytes "/bar/x/y").length < rounds →
      getPackageRun scenarioRegistry.packages rounds (bytes "/bar/x/y") = some (.ok res) ∧
        getPackageLoop scenarioRegistry.packages rounds (bytes "/bar/x/y") = .ok res :=
  ⟨by decide, by decide, by decide, by decide, by decide, by decide, by decide,
    (getPackage_terminates scenarioRegistry (bytes "/bar/x/y") (Or.inr (by decide))).2.2.1⟩

/-! ## The failure on a malformed line -/

/-- C4 (the code departs from it): the line `/onlypath` has one field, and
`NewPackage` panics on `fields[1]` (index out of range [1] with length 1): it
returns no record, and it has no failure to return. The caller cannot receive
the panic as a failure value: `loadPackages` and `NewPackageList`, which hand
the failure to open the file and the failure of a read to their caller as an
error, return nothing at this line; the panic goes on through both. -/
theorem NewPackage_onlypath_panics :
    (Fields (bytes "/onlypath")).length = 1 ∧
    NewPackage (bytes "/onlypath") = .error (.indexOutOfRange 1 1) ∧
    loadPackages (fileWith (bytes "/onlypath\n")) emptyRegistry
      = (emptyRegistry, .error (.indexOutOfRange 1 1)) ∧
    NewPackageList (fileWith (bytes "/onlypath\n")) (bytes "pkgs") []
      = .error (.indexOutOfRange 1 1) ∧
    NewPackageList (fun _ => .error (.os (bytes "open pkgs: no such file or directory")))
        (bytes "pkgs") []
      = .ok (.error (.os (bytes "open pkgs: no such file or directory"))) ∧
    NewPackageList (fun _ => .ok ⟨bytes "/a git u\n", some (bytes "read pkgs: input/output error")⟩)
        (bytes "pkgs") []
      = .ok (.error (.os (bytes "read pkgs: input/output error"))) := by
  refine ⟨by decide, by decide, by decide, by decide, by decide, by decide⟩

/-! ## The claims on loading, on lines longer than the buffer -/

/-- The fields of the whole line `/a git x…x/b hg v`. -/
theorem longLine_fields (xs : GoString) (hne : xs ≠ []) (hx : ∀ b ∈ xs, b = 120) :
    Fields (bytes "/a git " ++ xs ++ bytes "/b hg v")
      = [bytes "/a", bytes "git", xs ++ bytes "/b", bytes "hg", bytes "v"] := by
  have hpre : bytes "/a git " = [47, 97, 32, 103, 105, 116, 32] := by decide
  have hpost : bytes "/b hg v" = [47, 98, 32, 104, 103, 32, 118] := by decide
  have hascii : ∀ b ∈ bytes "/a git " ++ xs, b < 128 := by
    intro b hb
    rcases List.mem_append.1 hb with hb | hb
    · rw [hpre] at hb
      simp at hb
      omega
    · rw [hx b hb]
      decide
  have hr : runes (bytes "/a git " ++ xs ++ bytes "/b hg v")
      = (bytes "/a git ").map (fun b => (b, [b]))
          ++ (xs.map (fun b => (b, [b])) ++ runes (bytes "/b hg v")) := by
    rw [runes_append_ascii (bytes "/a git " ++ xs) _ hascii, List.map_append,
      List.append_assoc]
  have hrp : runes (bytes "/b hg v")
      = [(47, [47]), (98, [98]), (32, [32]), (104, [104]), (103, [103]), (32, [32]),
          (118, [118])] := by decide
  have h47 : isSpace 47 = false := by decide
  have h97 : isSpace 97 = false := by decide
  have h98 : isSpace 98 = false := by decide
  have h32 : isSpace 32 = true := by decide
  have h103 : isSpace 103 = false := by decide
  have h104 : isSpace 104 = false := by decide
  have h105 : isSpace 105 = false := by decide
  have h116 : isSpace 116 = false := by decide
  have h118 : isSpace 118 = false := by decide
  have h120 : isSpace 120 = false := by decide
  have hb1 : bytes "/a" = [47, 97] := by decide
  have hb2 : bytes "git" = [103, 105, 116] := by decide
  have hb3 : bytes "/b" = [47, 98] := by decide
  have hb4 : bytes "hg" = [104, 103] := by decide
  have hb5 : bytes "v" = [118] := by decide
  have hxs : ∀ b ∈ xs, isSpace b = false := by
    intro b hb
    rw [hx b hb]
    exact h120
  obtain ⟨x0, xs2, rfl⟩ := List.exists_cons_of_ne_nil hne
  rw [Fields, hr, hrp, hpre, hb1, hb2, hb3, hb4, hb5]
  simp only [List.map_cons, List.map_nil, List.cons_append, List.nil_append, fieldsLoop,
    h47, h97, h32, h103, h105, h116, hxs x0 (List.mem_cons_self _ _), if_true, if_false,
    Bool.false_eq_true, List.append_eq]
  rw [fieldsLoop_ascii_word _ xs2 [x0] (fun b hb => hxs b (List.mem_cons_of_mem _ hb))]
  simp only [fieldsLoop, h47, h98, h32, h104, h103, h118, if_true, if_false,
    Bool.false_eq_true, List.append_eq, List.cons_append, List.nil_append, List.append_assoc]

/-- The record of the whole line `/a git x…x/b hg v`, and what `loadPackages`
installs for the file that holds this line alone. -/
theorem load_long_line_entries (xs : List Nat) (hx : ∀ b ∈ xs, b = 120)
    (hlen : xs.length = 4089) :
    (Fields (bytes "/a git " ++ xs ++ bytes "/b hg v")).length = 5 ∧
    NewPackage (bytes "/a git " ++ xs ++ bytes "/b hg v")
      = .ok ⟨bytes "/a", bytes "git", xs ++ bytes "/b", bytes "hg"⟩ ∧
    (loadPackages (fileWith (joinLines [bytes "/a git " ++ xs ++ bytes "/b hg v"] []))
        emptyRegistry).2 = .ok none ∧
    (loadPackages (fileWith (joinLines [bytes "/a git " ++ xs ++ bytes "/b hg v"] []))
        emptyRegistry).1.packages.keys = [bytes "/a", bytes "/b"] ∧
    (loadPackages (fileWith (joinLines [bytes "/a git " ++ xs ++ bytes "/b hg v"] []))
        emptyRegistry).1.packages.find (bytes "/a")
      = some ⟨bytes "/a", bytes "git", xs, []⟩ := by
  have hne : xs ≠ [] := by
    intro h
    rw [h] at hlen
    simp at hlen
  have hf : Fields (bytes "/a git " ++ xs ++ bytes "/b hg v")
      = [bytes "/a", bytes "git", xs ++ bytes "/b", bytes "hg", bytes "v"] :=
    longLine_fields xs hne hx
  have hload : loadPackages (fileWith (joinLines [bytes "/a git " ++ xs ++ bytes "/b hg v"] []))
        emptyRegistry
      = ({ emptyRegistry with
            packages := [(bytes "/a", ⟨bytes "/a", bytes "git", xs, []⟩),
                         (bytes "/b", ⟨bytes "/b", bytes "hg", bytes "v", []⟩)] },
         .ok none) := (load_long_line xs hx hlen).2.2
  refine ⟨by rw [hf]; rfl, ?_, by rw [hload], by rw [hload]; rfl, ?_⟩
  · rw [NewPackage_three_fields _ (by rw [hf]; simp), hf]
    rfl
  · rw [hload]
    simp only [GoMap.find, if_true]

/-- C7 (the code departs from it): the file that holds the one line `longLine`
(`/a git `, 4089 times `x`, `/b hg v`; 5 fields, path `/a`) and its line
feed. The only path that occurs in the file is `/a`, and the record parsed
from its line has `Repo` `x…x/b` and `Doc` `hg`. `loadPackages` returns `nil`
and installs two entries, under `/a` and under `/b`, and the record under `/a`
has `Repo` `x…x` and no `Doc`: it is parsed from the first 4096 bytes of the
line, the entry `/b` from the rest. -/
theorem load_long_line_wrong_entries :
    (Fields longLine).length = 5 ∧
    NewPackage longLine
      = .ok ⟨bytes "/a", bytes "git", List.replicate 4089 120 ++ bytes "/b", bytes "hg"⟩ ∧
    (loadPackages (fileWith (joinLines [longLine] [])) emptyRegistry).2 = .ok none ∧
    (loadPackages (fileWith (joinLines [longLine] [])) emptyRegistry).1.packages.keys
      = [bytes "/a", bytes "/b"] ∧
    (loadPackages (fileWith (joinLines [longLine] [])) emptyRegistry).1.packages.find (bytes "/a")
      = some ⟨bytes "/a", bytes "git", List.replicate 4089 120, []⟩ := by
  unfold longLine
  exact load_long_line_entries (List.replicate 4089 120)
    (fun _ hb => List.eq_of_mem_replicate hb) (List.length_replicate _ _)

theorem indexFunc_ascii_spaces (rest : List (Nat × GoString)) :
    ∀ (xs : List Nat) (i : Nat), (∀ b ∈ xs, isSpace b = true) →
      indexFunc false (xs.map (fun b => (b, [b])) ++ rest) i
        = indexFunc false rest (i + xs.length) := by
  intro xs
  induction xs with
  | nil => intro i _; rfl
  | cons x xs ih =>
    intro i h
    have hx : isSpace x = true := h x (List.mem_cons_self _ _)
    simp only [List.map_cons, List.cons_append, indexFunc, hx, Bool.true_eq_false, if_false,
      List.append_eq]
    rw [ih _ (fun b hb => h b (List.mem_cons_of_mem _ hb))]
    simp only [List.length_cons, List.length_nil]
    congr 1
    omega

/-- What `loadPackages` does with a file whose first line is a run of spaces
and the no-break space U+00A0, when the first 4096 bytes end between the two
bytes of the no-break space. -/
theorem load_wide_blank_line (xs : List Nat) (hx : ∀ b ∈ xs, b = 32) (hlen : xs.length = 4095) :
    isWhite (xs ++ [194, 160]) ∧ nonBlank (xs ++ [194, 160]) = false ∧
    10 ∉ xs ++ [194, 160] ∧
    loadPackages (fileWith (joinLines [xs ++ [194, 160], bytes "/a git u"] [])) emptyRegistry
      = (emptyRegistry, .error (.indexOutOfRange 1 1)) := by
  have hsp : ∀ b ∈ xs, isSpace b = true := by
    intro b hb
    rw [hx b hb]
    decide
  have hascii : ∀ b ∈ xs, b < 128 := by
    intro b hb
    rw [hx b hb]
    decide
  have hxs10 : 10 ∉ xs := fun h => by
    have := hx 10 h
    omega
  have hr2 : runes [194, 160] = [(160, [194, 160])] := by decide
  have hr1 : runes [194] = [(RuneError, [194])] := by decide
  have hs160 : isSpace 160 = true := by decide
  have hsErr : isSpace RuneError = false := by decide
  have hrw : runes (xs ++ [194, 160]) = xs.map (fun b => (b, [b])) ++ [(160, [194, 160])] := by
    rw [runes_append_ascii xs _ hascii, hr2]
  have hrc : runes (xs ++ [194]) = xs.map (fun b => (b, [b])) ++ [(RuneError, [194])] := by
    rw [runes_append_ascii xs _ hascii, hr1]
  have hwhite : isWhite (xs ++ [194, 160]) := by
    intro tk htk
    rw [hrw] at htk
    rcases List.mem_append.1 htk with h | h
    · obtain ⟨b, hb, rfl⟩ := List.mem_map.1 h
      exact hsp b hb
    · simp only [List.mem_singleton] at h
      rw [h]
      exact hs160
  have hblank : nonBlank (xs ++ [194, 160]) = false := by
    have hl : TrimLeftSpace (xs ++ [194, 160]) = [] := by
      unfold TrimLeftSpace
      rw [hrw, indexFunc_ascii_spaces _ xs 0 hsp]
      simp only [indexFunc, hs160, Bool.true_eq_false, if_false, if_true]
    have ht : TrimSpace (xs ++ [194, 160]) = [] := by
      rw [TrimSpace, hl]
      decide
    simp only [nonBlank, ht]
    decide
  have hmem : 10 ∉ xs ++ [194, 160] := by
    simp only [List.mem_append, not_or]
    exact ⟨hxs10, by decide⟩
  refine ⟨hwhite, hblank, hmem, ?_⟩
  have hdata : joinLines [xs ++ [194, 160], bytes "/a git u"] []
      = (xs ++ [194]) ++ ([160, 10] ++ bytes "/a git u\n") := by
    have : bytes "/a git u\n" = bytes "/a git u" ++ [10] := by decide
    simp [joinLines, this]
  have hclen : (xs ++ [194]).length = defaultBufSize := by
    simp only [List.length_append, hlen]
    rfl
  have hc10 : 10 ∉ xs ++ [194] := by
    simp only [List.mem_append, not_or]
    exact ⟨hxs10, by decide⟩
  have hccr : (xs ++ [194]).getLast? ≠ some 13 := by
    rw [List.getLast?_concat]
    decide
  have hlines : (Reader.mk (joinLines [xs ++ [194, 160], bytes "/a git u"] []) none).lines
      = (xs ++ [194]) ::
          (Reader.mk ([160, 10] ++ bytes "/a git u\n") none).lines := by
    rw [lines_cons _ (by rw [hdata]; simp), hdata,
      ReadLine_full_buffer _ _ none hclen hc10 hccr]
  have htl : TrimLeftSpace (xs ++ [194]) = [194] := by
    unfold TrimLeftSpace
    rw [hrc, indexFunc_ascii_spaces _ xs 0 hsp]
    simp only [indexFunc, hsErr, if_true, Nat.zero_add]
    rw [if_neg (by omega)]
    simp
  have htrim : (TrimSpace (xs ++ [194])).length > 0 := by
    have : TrimSpace (xs ++ [194]) = [194] := by
      rw [TrimSpace, htl]
      decide
    rw [this]
    decide
  have hfields : Fields (xs ++ [194]) = [[194]] := by
    rw [Fields, hrc, fieldsLoop_spaces _ _ (by
      intro tk htk
      obtain ⟨b, hb, rfl⟩ := List.mem_map.1 htk
      exact hsp b hb)]
    simp only [fieldsLoop, hsErr, Bool.false_eq_true, if_false]
  have hnew : NewPackage (xs ++ [194]) = .error (.indexOutOfRange 1 1) := by
    rw [NewPackage_few_fields _ (by rw [hfields]; decide), hfields]
    rfl
  rw [loadPackages_eq (fileWith (joinLines [xs ++ [194, 160], bytes "/a git u"] []))
    emptyRegistry (Reader.mk (joinLines [xs ++ [194, 160], bytes "/a git u"] []) none) rfl,
    hlines]
  simp only [addLines, if_pos htrim, hnew]

/-- C8 (the code departs from it): the file with the one line `/a git u` loads
with the entry `/a`. With the line `wideBlankLine` (4095 spaces and the
no-break space U+00A0: white space only, no record) put before that line,
`loadPackages` panics with index out of range [1] with length 1 and installs
nothing: the first 4096 bytes of the blank line end in the byte C2, which is
no white space by itself, and are handed to `NewPackage` as a line. -/
theorem load_wide_blank_line_panics :
    isWhite wideBlankLine ∧ nonBlank wideBlankLine = false ∧ 10 ∉ wideBlankLine ∧
    loadPackages (fileWith (joinLines [bytes "/a git u"] [])) emptyRegistry
      = ({ emptyRegistry with
            packages := [(bytes "/a", ⟨bytes "/a", bytes "git", bytes "u", []⟩)] },
         .ok none) ∧
    loadPackages (fileWith (joinLines [wideBlankLine, bytes "/a git u"] [])) emptyRegistry
      = (emptyRegistry, .error (.indexOutOfRange 1 1)) := by
  unfold wideBlankLine
  obtain ⟨h1, h2, h3, h4⟩ := load_wide_blank_line (List.replicate 4095 32)
    (fun _ hb => List.eq_of_mem_replicate hb) (List.length_replicate _ _)
  exact ⟨h1, h2, h3, by decide, h4⟩

end Gorepos
